import Mathlib

/-!
Verification of the per-key rate-limit core of `src/pyservice/main.py`
(`RateLimitStore`, `classify_model_bucket`) against its natural-language
specification.

Modelling conventions:
* Python `time.time()` float seconds are modelled as exact integer-valued
  times (`Int`).  All claim-relevant arithmetic (window cutoffs, release
  times, waits) is exact; on integral waits `math.ceil` is the identity.
* Python dicts are modelled as association lists preserving insertion
  order (`alGet` / `alSet` below mirror lookup, in-place update, and
  append-on-new-key semantics, including `setdefault`).
* `uuid.uuid4().hex` fresh event ids are modelled by a monotone counter
  `next_id` carried in the store state; the sha256-prefix key fingerprint
  is modelled as an abstract deterministic encoding of the key string
  (no claim below depends on any property of the encoding).
* Persistence (`_persist_locked`) is file I/O with no effect on the
  in-memory state, so it is not modelled; `updated_at` stores the raw
  time of the last update instead of its ISO rendering.
-/

/-- Model buckets: the closed enumeration of rate-limit quota classes
(`MODEL_BUCKET_NANO = "nano_banana"`, `MODEL_BUCKET_PRO = "nano_banana_pro"`). -/
inductive MBucket where
  | nano_banana
  | nano_banana_pro
deriving DecidableEq, Repr

/-- The tuple `MODEL_BUCKETS` from the source. -/
def MODEL_BUCKETS : List MBucket := [MBucket.nano_banana, MBucket.nano_banana_pro]

/-- Constant `RPM_WINDOW_SECONDS = 60` from the source. -/
def RPM_WINDOW_SECONDS : Int := 60

/-- Constant `RPD_WINDOW_SECONDS = 86_400` from the source. -/
def RPD_WINDOW_SECONDS : Int := 86400

/-- A reservation event `{"id": ..., "ts": ..., "tokens": ...}`.  Events
appended by `reserve_key` carry no `"tokens"` key; reads default it to `0`,
so such events are modelled with `tokens = 0`. -/
structure Event where
  id : Nat
  ts : Int
  tokens : Nat
deriving DecidableEq, Repr

/-- Per-bucket limits dict `{"rpm": int, "rpd": int}`. -/
structure Limits where
  rpm : Int
  rpd : Int
deriving DecidableEq, Repr

/-- Association-list lookup, mirroring Python dict `get`. -/
def alGet {κ β : Type} [DecidableEq κ] : List (κ × β) → κ → Option β
  | [], _ => none
  | (k, v) :: rest, key => if k = key then some v else alGet rest key

/-- Association-list update, mirroring Python dict assignment: replace in
place when the key is present, append at the end when it is new. -/
def alSet {κ β : Type} [DecidableEq κ] : List (κ × β) → κ → β → List (κ × β)
  | [], key, val => [(key, val)]
  | (k, v) :: rest, key, val =>
      if k = key then (k, val) :: rest else (k, v) :: alSet rest key val

/-- Map of one bucket: fingerprint to event list. -/
abbrev BucketMap := List (String × List Event)

/-- The events ledger: bucket to fingerprint to event list. -/
abbrev Ledger := List (MBucket × BucketMap)

/-- In-memory store state: the events ledger, the `updated_at` stamp
(modelled as the raw time of last update), and the fresh-id counter
standing in for `uuid.uuid4`. -/
structure StoreState where
  events : Ledger
  updated_at : Int
  next_id : Nat
deriving DecidableEq, Repr

/-- `RateLimitStore._empty_state`: an empty ledger stamped with the
current time. -/
def empty_state (now : Int) : StoreState :=
  { events := [], updated_at := now, next_id := 0 }

/-- Key fingerprint (`fingerprint_api_key`): a deterministic encoding of
the secret key.  The sha256-hex-prefix of the source is abstracted to the
key string itself; no claim depends on properties of the encoding. -/
def fingerprint_api_key (api_key : String) : String := api_key

/-- Entry list stored under `(bucket, fingerprint)`, with absent keys read
as the empty list (the value Python code observes via `get`/`setdefault`). -/
def entriesOfD (L : Ledger) (b : MBucket) (f : String) : List Event :=
  match alGet L b with
  | none => []
  | some bm => (alGet bm f).getD []

/-- Stable insertion of an event into a ts-sorted list, keeping earlier
elements first among equal timestamps. -/
def insertTs (e : Event) : List Event → List Event
  | [] => [e]
  | x :: xs => if e.ts ≤ x.ts then e :: x :: xs else x :: insertTs e xs

/-- Stable sort by ascending `ts`, modelling Python's stable `list.sort`
with key `float(item["ts"])`. -/
def sortTs : List Event → List Event
  | [] => []
  | x :: xs => insertTs x (sortTs xs)

namespace RateLimitStore

/-- One step of the per-fingerprint pruning loop of `_prune_locked`:
filter each entry list to events with `ts ≥ cutoff`, drop fingerprints
whose kept list is empty, and report whether anything changed. -/
def prune_fps (cutoff : Int) : BucketMap → BucketMap × Bool
  | [] => ([], false)
  | (f, entries) :: rest =>
      let kept := entries.filter fun e => decide (cutoff ≤ e.ts)
      let r := prune_fps cutoff rest
      if kept.isEmpty then (r.1, true)
      else ((f, kept) :: r.1, r.2 || decide (kept.length ≠ entries.length))

/-- The bucket-level loop of `_prune_locked`: prune each bucket submap and
drop buckets whose submap becomes empty. -/
def prune_buckets (cutoff : Int) : Ledger → Ledger × Bool
  | [] => ([], false)
  | (b, bm) :: rest =>
      let p := prune_fps cutoff bm
      let r := prune_buckets cutoff rest
      if p.1.isEmpty then (r.1, true)
      else ((b, p.1) :: r.1, p.2 || r.2)

/-- `RateLimitStore._prune_locked`: drop events older than
`now - RPD_WINDOW_SECONDS`, drop empty submaps, refresh `updated_at`
when anything changed, and return the change flag. -/
def prune_locked (now : Int) (s : StoreState) : StoreState × Bool :=
  let p := prune_buckets (now - RPD_WINDOW_SECONDS) s.events
  if p.2 then ({ s with events := p.1, updated_at := now }, true)
  else ({ s with events := p.1 }, false)

/-- The state effect of `RateLimitStore._entries_locked`: `setdefault` the
bucket submap and the fingerprint entry list (inserting an empty list when
the key is absent). -/
def ensure_entry (L : Ledger) (b : MBucket) (f : String) : Ledger :=
  match alGet L b with
  | none => alSet L b [(f, [])]
  | some bm =>
      match alGet bm f with
      | none => alSet L b (alSet bm f [])
      | some _ => L

/-- `RateLimitStore._entries_locked`: return the entry list for
`(bucket, fingerprint)` after ensuring both keys exist in the ledger. -/
def entries_locked (s : StoreState) (b : MBucket) (f : String) :
    List Event × StoreState :=
  let L := ensure_entry s.events b f
  (entriesOfD L b f, { s with events := L })

/-- Result tuple of `RateLimitStore._usage_for_entries`. -/
structure Usage where
  rpm_used : Nat
  rpd_used : Nat
  minute_events : List Event
  day_events : List Event
deriving DecidableEq, Repr

/-- `RateLimitStore._usage_for_entries`: window counts and ts-sorted
window event lists for the minute and day windows. -/
def usage_for_entries (entries : List Event) (now : Int) : Usage :=
  let minute_events := entries.filter fun e =>
    decide (now - RPM_WINDOW_SECONDS ≤ e.ts)
  let day_events := entries.filter fun e =>
    decide (now - RPD_WINDOW_SECONDS ≤ e.ts)
  { rpm_used := minute_events.length
    rpd_used := day_events.length
    minute_events := sortTs minute_events
    day_events := sortTs day_events }

/-- `RateLimitStore._key_wait_seconds_locked`.  On integral times the
final `int(math.ceil(...))` of the source is the identity, so the result
is `max 1` of the largest collected wait. -/
def key_wait_seconds_locked (retry_after : Int) (entries : List Event)
    (limits : Limits) (now : Int) : Int :=
  if limits.rpm ≤ 0 ∨ limits.rpd ≤ 0 then
    retry_after
  else
    let u := usage_for_entries entries now
    let waits_m : List Int :=
      if limits.rpm ≤ (u.rpm_used : Int) ∧ u.minute_events ≠ [] then
        let release_index : Int := max 0 ((u.rpm_used : Int) - limits.rpm)
        let release_ts : Int :=
          (u.minute_events.getD release_index.toNat ⟨0, now, 0⟩).ts +
            RPM_WINDOW_SECONDS
        [max 0 (release_ts - now)]
      else []
    let waits : List Int :=
      waits_m ++
        (if limits.rpd ≤ (u.rpd_used : Int) ∧ u.day_events ≠ [] then
          let release_index : Int := max 0 ((u.rpd_used : Int) - limits.rpd)
          let release_ts : Int :=
            (u.day_events.getD release_index.toNat ⟨0, now, 0⟩).ts +
              RPD_WINDOW_SECONDS
          [max 0 (release_ts - now)]
        else [])
    match waits with
    | [] => 0
    | w :: ws => max 1 (ws.foldl max w)

/-- `RateLimitStore._is_key_available_locked`: both limits positive and
both window counts strictly below their limits. -/
def is_key_available_locked (entries : List Event) (limits : Limits)
    (now : Int) : Bool :=
  if limits.rpm ≤ 0 ∨ limits.rpd ≤ 0 then
    false
  else
    let u := usage_for_entries entries now
    decide ((u.rpm_used : Int) < limits.rpm ∧ (u.rpd_used : Int) < limits.rpd)

end RateLimitStore

namespace RateLimitStore

/-- Allocation record returned by a successful `reserve_key`. -/
structure Allocation where
  api_key : String
  key_index : Nat
  key_count : Nat
  key_fingerprint : String
  event_id : Nat
deriving DecidableEq, Repr

/-- Write the entry list for `(bucket, fingerprint)` back into the ledger,
modelling in-place mutation of the aliased list obtained from
`_entries_locked`. -/
def set_entries (L : Ledger) (b : MBucket) (f : String) (es : List Event) :
    Ledger :=
  match alGet L b with
  | none => alSet L b [(f, es)]
  | some bm => alSet L b (alSet bm f es)

/-- Python `min` over a nonempty list of ints (head seeded fold). -/
def listMin (w : Int) (ws : List Int) : Int := ws.foldl min w

/-- The key-probing loop of `reserve_key`, over the remaining offsets.
For each offset it looks up the key's entries (inserting empty ledger
entries via `_entries_locked`), allocates a fresh event when the key is
available, and otherwise collects a positive wait estimate. -/
def reserve_go (retry_after : Int) (bucket : MBucket) (api_keys : List String)
    (limits : Limits) (start_index : Nat) (now : Int) :
    List Nat → List Int → StoreState → (Option Allocation × Int) × StoreState
  | [], waits, s =>
      let retry_after_seconds :=
        match waits with
        | [] => retry_after
        | w :: ws => listMin w ws
      ((none, max 1 retry_after_seconds), s)
  | offset :: rest, waits, s =>
      let key_count := api_keys.length
      let key_index := (start_index + offset) % key_count
      let api_key := api_keys.getD key_index ""
      let key_fingerprint := fingerprint_api_key api_key
      let es := entries_locked s bucket key_fingerprint
      if is_key_available_locked es.1 limits now then
        let event_id := es.2.next_id
        let s2 : StoreState :=
          { events := set_entries es.2.events bucket key_fingerprint
              (es.1 ++ [{ id := event_id, ts := now, tokens := 0 }])
            updated_at := now
            next_id := es.2.next_id + 1 }
        ((some { api_key := api_key, key_index := key_index,
                 key_count := key_count, key_fingerprint := key_fingerprint,
                 event_id := event_id }, 0), s2)
      else
        let wait_seconds := key_wait_seconds_locked retry_after es.1 limits now
        reserve_go retry_after bucket api_keys limits start_index now rest
          (if 0 < wait_seconds then waits ++ [wait_seconds] else waits) es.2

/-- `RateLimitStore.reserve_key`.  `retry_after` stands for the value of
`get_retry_after_seconds()` (an environment read, always positive in the
source).  Persistence calls are I/O only and are not modelled. -/
def reserve_key (retry_after : Int) (bucket : MBucket) (api_keys : List String)
    (limits : Limits) (start_index : Nat) (now : Int) (s : StoreState) :
    (Option Allocation × Int) × StoreState :=
  let p := prune_locked now s
  if api_keys.isEmpty then ((none, retry_after), p.1)
  else
    reserve_go retry_after bucket api_keys limits start_index now
      (List.range api_keys.length) [] p.1

/-- Reservation handle `(model_bucket, key_fingerprint, event_id)`. -/
structure Reservation where
  model_bucket : MBucket
  key_fingerprint : String
  event_id : Nat
deriving DecidableEq, Repr

/-- The event-update loop of `finalize_reservation`: bump the first event
with the matching id to `ts := max ts now`, reporting whether a match was
found. -/
def update_event (event_id : Nat) (now : Int) : List Event → List Event × Bool
  | [] => ([], false)
  | e :: rest =>
      if e.id = event_id then
        ({ e with ts := max e.ts now } :: rest, true)
      else
        let r := update_event event_id now rest
        (e :: r.1, r.2)

/-- `RateLimitStore.finalize_reservation`: prune, look up the reservation's
entry list (inserting empty ledger entries when absent), bump the matched
event's timestamp forward, and refresh `updated_at` when a match was found. -/
def finalize_reservation (res : Reservation) (now : Int) (s : StoreState) :
    StoreState :=
  let p := prune_locked now s
  let es := entries_locked p.1 res.model_bucket res.key_fingerprint
  let u := update_event res.event_id now es.1
  if u.2 then
    { es.2 with
      events := set_entries es.2.events res.model_bucket res.key_fingerprint u.1
      updated_at := now }
  else es.2

/-- Per-bucket block of the snapshot payload (label omitted: it is a
constant string per bucket). -/
structure BucketStatus where
  rpm_used : Int
  rpm_limit : Int
  rpd_used : Int
  rpd_limit : Int
  exhausted : Bool
  retry_after_seconds : Int
deriving DecidableEq, Repr

/-- The per-key loop of `snapshot` for one bucket: accumulate window
counts, track availability, and collect positive waits of unavailable
keys, threading the ledger through `_entries_locked`. -/
def snapshot_keys (retry_after : Int) (b : MBucket) (limits : Limits)
    (now : Int) :
    List String → StoreState → Int → Int → Bool → List Int →
      (Int × Int × Bool × List Int) × StoreState
  | [], s, rpm_t, rpd_t, any_av, blocked => ((rpm_t, rpd_t, any_av, blocked), s)
  | k :: rest, s, rpm_t, rpd_t, any_av, blocked =>
      let key_fingerprint := fingerprint_api_key k
      let es := entries_locked s b key_fingerprint
      let u := usage_for_entries es.1 now
      let rpm_t2 := rpm_t + (u.rpm_used : Int)
      let rpd_t2 := rpd_t + (u.rpd_used : Int)
      if is_key_available_locked es.1 limits now then
        snapshot_keys retry_after b limits now rest es.2 rpm_t2 rpd_t2 true blocked
      else
        let w := key_wait_seconds_locked retry_after es.1 limits now
        snapshot_keys retry_after b limits now rest es.2 rpm_t2 rpd_t2 any_av
          (if 0 < w then blocked ++ [w] else blocked)

/-- The per-bucket body of `snapshot`: totals are the per-key limits
clamped at zero times the pool size, `exhausted` is
`enabled and bool(api_keys) and not any_key_available`, and
`retry_after_seconds` is the minimum blocked wait when exhausted and any
blocked wait was collected, else 0. -/
def snapshot_bucket (retry_after : Int) (b : MBucket) (api_keys : List String)
    (limits : Limits) (enabled : Bool) (now : Int) (s : StoreState) :
    BucketStatus × StoreState :=
  let rpm_total := max 0 limits.rpm * (api_keys.length : Int)
  let rpd_total := max 0 limits.rpd * (api_keys.length : Int)
  let r := snapshot_keys retry_after b limits now api_keys s 0 0 false []
  let rpm_used_total := r.1.1
  let rpd_used_total := r.1.2.1
  let any_key_available := r.1.2.2.1
  let blocked_waits := r.1.2.2.2
  let exhausted := enabled && !api_keys.isEmpty && !any_key_available
  let retry_after_seconds :=
    match blocked_waits with
    | [] => 0
    | w :: ws => if exhausted then listMin w ws else 0
  ({ rpm_used := rpm_used_total, rpm_limit := rpm_total
     rpd_used := rpd_used_total, rpd_limit := rpd_total
     exhausted := exhausted
     retry_after_seconds := retry_after_seconds }, r.2)

/-- `RateLimitStore.snapshot`: prune, then report one `BucketStatus` per
bucket of `MODEL_BUCKETS`, threading the ledger (with its
`_entries_locked` insertions) from bucket to bucket. -/
def snapshot (retry_after : Int) (api_keys : List String)
    (limits_by_bucket : MBucket → Limits) (enabled : Bool) (now : Int)
    (s : StoreState) : List (MBucket × BucketStatus) × StoreState :=
  let p := prune_locked now s
  let r1 := snapshot_bucket retry_after MBucket.nano_banana api_keys
    (limits_by_bucket MBucket.nano_banana) enabled now p.1
  let r2 := snapshot_bucket retry_after MBucket.nano_banana_pro api_keys
    (limits_by_bucket MBucket.nano_banana_pro) enabled now r1.2
  ([(MBucket.nano_banana, r1.1), (MBucket.nano_banana_pro, r2.1)], r2.2)

end RateLimitStore

/-- Bucket constant `MODEL_BUCKET_NANO`. -/
def MODEL_BUCKET_NANO : MBucket := MBucket.nano_banana

/-- Bucket constant `MODEL_BUCKET_PRO`. -/
def MODEL_BUCKET_PRO : MBucket := MBucket.nano_banana_pro

/-- Python `str.strip()`: drop whitespace characters from both ends of the
string. -/
def pyStrip (s : String) : String :=
  ⟨((s.data.dropWhile Char.isWhitespace).reverse.dropWhile
      Char.isWhitespace).reverse⟩

/-- `classify_model_bucket` from the source.  `base_model` and `pro_model`
are the configured identifiers (the values of `get_vertex_model()` and
`get_vertex_model_pro()`); Python `str.strip()` is modelled by `pyStrip`,
and `preferred_model or ""` by `Option.getD`. -/
def classify_model_bucket (base_model pro_model : String)
    (model_name : String) (preferred_model : Option String) : MBucket :=
  let normalized := pyStrip model_name
  let base := pyStrip base_model
  let pro := pyStrip pro_model
  if normalized ≠ "" ∧ normalized = pro then MODEL_BUCKET_PRO
  else if normalized ≠ "" ∧ normalized = base then MODEL_BUCKET_NANO
  else
    let preferred := pyStrip (preferred_model.getD "")
    if preferred ≠ "" ∧ preferred = pro then MODEL_BUCKET_PRO
    else MODEL_BUCKET_NANO

/-- A public store operation together with the wall-clock time
(`time.time()`) observed at its start. -/
inductive StoreOp where
  | reserve (retry_after : Int) (bucket : MBucket) (api_keys : List String)
      (limits : Limits) (start_index : Nat) (now : Int)
  | finalize (res : RateLimitStore.Reservation) (now : Int)
  | snap (retry_after : Int) (api_keys : List String)
      (limits_by_bucket : MBucket → Limits) (enabled : Bool) (now : Int)

/-- Wall-clock time at which an operation runs. -/
def StoreOp.time : StoreOp → Int
  | .reserve _ _ _ _ _ now => now
  | .finalize _ now => now
  | .snap _ _ _ _ now => now

/-- Whether an operation is a `finalize_reservation` call. -/
def StoreOp.isFinalize : StoreOp → Bool
  | .finalize _ _ => true
  | _ => false

/-- State transition of one public store operation (outputs discarded). -/
def StoreOp.apply (s : StoreState) : StoreOp → StoreState
  | .reserve retry_after bucket api_keys limits start_index now =>
      (RateLimitStore.reserve_key retry_after bucket api_keys limits
        start_index now s).2
  | .finalize res now => RateLimitStore.finalize_reservation res now s
  | .snap retry_after api_keys limits_by_bucket enabled now =>
      (RateLimitStore.snapshot retry_after api_keys limits_by_bucket enabled
        now s).2

/-- Run a sequence of public store operations from a start state. -/
def runOps (s : StoreState) (ops : List StoreOp) : StoreState :=
  ops.foldl StoreOp.apply s

/-- The operations run at non-decreasing wall-clock times, starting no
earlier than `t` (the clock of `time.time()` never goes backwards). -/
def chronologicalB : Int → List StoreOp → Bool
  | _, [] => true
  | t, op :: rest => decide (t ≤ op.time) && chronologicalB op.time rest

/-- Adjacent-pairs check that a list of events is non-decreasing in `ts`. -/
def tsNondecB : List Event → Bool
  | [] => true
  | [_] => true
  | a :: b :: rest => decide (a.ts ≤ b.ts) && tsNondecB (b :: rest)

/-- Every `(bucket, fingerprint)` event list of the ledger is
non-decreasing in `ts`. -/
def ledgerSortedB (L : Ledger) : Bool :=
  L.all fun bp => bp.2.all fun fe => tsNondecB fe.2

/-- No bucket maps to an empty fingerprint submap and no fingerprint maps
to an empty event list. -/
def ledgerNoEmptyB (L : Ledger) : Bool :=
  L.all fun bp => !bp.2.isEmpty && bp.2.all fun fe => !fe.2.isEmpty

/-- All events of the ledger, each tagged with its bucket and fingerprint. -/
def allEvents (L : Ledger) : List (MBucket × String × Event) :=
  (L.map fun bp =>
    (bp.2.map fun fe => fe.2.map fun e => (bp.1, fe.1, e)).flatten).flatten

/-- Every event of the ledger has `ts ≤ t`. -/
def eventsLE (L : Ledger) (t : Int) : Prop :=
  ∀ x ∈ allEvents L, x.2.2.ts ≤ t

/-- Every event of the ledger has `ts ≥ t`. -/
def eventsGE (L : Ledger) (t : Int) : Prop :=
  ∀ x ∈ allEvents L, t ≤ x.2.2.ts

/-- Events of one bucket submap, tagged with bucket and fingerprint
(the inner layer of `allEvents`). -/
def bmEvents (b : MBucket) (bm : BucketMap) : List (MBucket × String × Event) :=
  (bm.map fun fe => fe.2.map fun e => (b, fe.1, e)).flatten

/-- The order in which `reserve_key` probes the key pool: offsets
`0 … len-1` from `start_index`, wrapping modulo the pool size. -/
def probe_order (api_keys : List String) (start_index : Nat) : List String :=
  (List.range api_keys.length).map fun o =>
    api_keys.getD ((start_index + o) % api_keys.length) ""

/-- Claim-side formulation of the waits collected by `reserve_key` over a
key sequence: each key contributes its per-key wait against the given
ledger when that wait is positive. -/
def collected_waits (retry_after : Int) (L : Ledger) (b : MBucket)
    (limits : Limits) (now : Int) (keys : List String) : List Int :=
  keys.filterMap fun k =>
    let w := RateLimitStore.key_wait_seconds_locked retry_after
      (entriesOfD L b (fingerprint_api_key k)) limits now
    if 0 < w then some w else none

/-- Claim-side formulation of one window's wait contribution: with `used`
the window count (the length of the sorted window list), the event at
index `used − limit` of the sorted window list releases a slot at its
`ts` plus the window length, contributing `max 0` of the distance from
`now` to that release time. -/
def release_wait (sorted_events : List Event) (limit : Nat)
    (window now : Int) : Int :=
  max 0
    ((sorted_events.getD (sorted_events.length - limit) ⟨0, now, 0⟩).ts +
      window - now)

/-- Claim-side formulation of the wait contributions of the two windows:
each window whose used count is at or over its (positive) limit
contributes its `release_wait`. -/
def window_contribs (entries : List Event) (limits : Limits) (now : Int) :
    List Int :=
  let u := RateLimitStore.usage_for_entries entries now
  (if limits.rpm ≤ (u.rpm_used : Int) then
    [release_wait u.minute_events limits.rpm.toNat RPM_WINDOW_SECONDS now]
  else []) ++
  (if limits.rpd ≤ (u.rpd_used : Int) then
    [release_wait u.day_events limits.rpd.toNat RPD_WINDOW_SECONDS now]
  else [])

/-- Claim-side formulation of one bucket of the snapshot payload as a pure
function of a (pruned) ledger, following the spec (amended: the per-key
limits are clamped at zero before being multiplied by the pool size):
totals are per-key limit times pool size, used counts are the sums of the
per-key window counts, `exhausted` is `enabled` and pool non-empty and no
key available, and `retry_after_seconds` is the least blocked wait when
exhausted and any blocked key has a positive wait, else `0`. -/
def snapshot_bucket_claim (retry_after : Int) (b : MBucket)
    (api_keys : List String) (limits : Limits) (enabled : Bool) (now : Int)
    (L : Ledger) : RateLimitStore.BucketStatus :=
  let entriesOf := fun k => entriesOfD L b (fingerprint_api_key k)
  let any_key_available := api_keys.any fun k =>
    RateLimitStore.is_key_available_locked (entriesOf k) limits now
  let blocked_waits := api_keys.filterMap fun k =>
    if RateLimitStore.is_key_available_locked (entriesOf k) limits now then
      none
    else
      let w := RateLimitStore.key_wait_seconds_locked retry_after
        (entriesOf k) limits now
      if 0 < w then some w else none
  let exhausted := enabled && !api_keys.isEmpty && !any_key_available
  { rpm_used := ((api_keys.map fun k =>
      ((RateLimitStore.usage_for_entries (entriesOf k) now).rpm_used : Int)).sum)
    rpm_limit := max 0 limits.rpm * (api_keys.length : Int)
    rpd_used := ((api_keys.map fun k =>
      ((RateLimitStore.usage_for_entries (entriesOf k) now).rpd_used : Int)).sum)
    rpd_limit := max 0 limits.rpd * (api_keys.length : Int)
    exhausted := exhausted
    retry_after_seconds :=
      match blocked_waits with
      | [] => 0
      | w :: ws => if exhausted then RateLimitStore.listMin w ws else 0 }

/-! ### Association-list lemmas -/

theorem alGet_alSet {κ β : Type} [DecidableEq κ] (L : List (κ × β)) (k : κ)
    (v : β) (k' : κ) :
    alGet (alSet L k v) k' = if k = k' then some v else alGet L k' := by
  induction L with
  | nil => by_cases h : k = k' <;> simp [alSet, alGet, h]
  | cons p rest ih =>
    obtain ⟨pk, pv⟩ := p
    by_cases h1 : pk = k
    · subst h1
      by_cases h2 : pk = k' <;> simp [alSet, alGet, h2]
    · have h3 : k ≠ pk := fun hk => h1 hk.symm
      by_cases h2 : pk = k'
      · subst h2
        have h4 : ¬k = pk := h3
        simp [alSet, alGet, h1, h4]
      · simp [alSet, alGet, h1, h2, ih]

theorem alSet_absent {κ β : Type} [DecidableEq κ] (L : List (κ × β)) (k : κ)
    (v : β) (h : alGet L k = none) : alSet L k v = L ++ [(k, v)] := by
  induction L with
  | nil => simp [alSet]
  | cons p rest ih =>
    obtain ⟨pk, pv⟩ := p
    by_cases h1 : pk = k
    · simp [alGet, h1] at h
    · simp [alGet, h1] at h
      simp [alSet, h1, ih h]

theorem mem_alSet {κ β : Type} [DecidableEq κ] {L : List (κ × β)} {k : κ}
    {v : β} {x : κ × β} (h : x ∈ alSet L k v) : x = (k, v) ∨ x ∈ L := by
  induction L with
  | nil => simpa [alSet] using h
  | cons p rest ih =>
    obtain ⟨pk, pv⟩ := p
    by_cases h1 : pk = k
    · subst h1
      simp [alSet] at h
      rcases h with h | h
      · exact Or.inl (by simp [h])
      · exact Or.inr (by simp [h])
    · simp [alSet, h1] at h
      rcases h with h | h
      · exact Or.inr (by simp [h])
      · rcases ih h with h2 | h2
        · exact Or.inl h2
        · exact Or.inr (by simp [h2])

theorem alGet_mem {κ β : Type} [DecidableEq κ] {L : List (κ × β)} {k : κ}
    {v : β} (h : alGet L k = some v) : (k, v) ∈ L := by
  induction L with
  | nil => simp [alGet] at h
  | cons p rest ih =>
    obtain ⟨pk, pv⟩ := p
    by_cases h1 : pk = k
    · subst h1
      simp [alGet] at h
      simp [h]
    · simp [alGet, h1] at h
      simp [ih h]

/-! ### Lemmas about ts-ordering of event lists -/

theorem tsNondec_of_cons {a : Event} {l : List Event}
    (h : tsNondecB (a :: l) = true) : tsNondecB l = true := by
  cases l with
  | nil => simp [tsNondecB]
  | cons b rest =>
    simp [tsNondecB] at h
    exact h.2

theorem tsNondec_head_le {a : Event} {l : List Event}
    (h : tsNondecB (a :: l) = true) : ∀ x ∈ l, a.ts ≤ x.ts := by
  induction l generalizing a with
  | nil => simp
  | cons b rest ih =>
    simp [tsNondecB] at h
    intro x hx
    rcases List.mem_cons.mp hx with hx | hx
    · subst hx; exact h.1
    · exact le_trans h.1 (ih h.2 x hx)

theorem tsNondec_pairwise (l : List Event) :
    tsNondecB l = true ↔ l.Pairwise (fun a b => a.ts ≤ b.ts) := by
  induction l with
  | nil => simp [tsNondecB]
  | cons a rest ih =>
    constructor
    · intro h
      exact List.pairwise_cons.mpr
        ⟨tsNondec_head_le h, ih.mp (tsNondec_of_cons h)⟩
    · intro h
      rcases List.pairwise_cons.mp h with ⟨h1, h2⟩
      cases rest with
      | nil => simp [tsNondecB]
      | cons b r2 =>
        simp [tsNondecB]
        exact ⟨h1 b (by simp), ih.mpr h2⟩

theorem tsNondec_filter {l : List Event} (p : Event → Bool)
    (h : tsNondecB l = true) : tsNondecB (l.filter p) = true :=
  (tsNondec_pairwise _).mpr (((tsNondec_pairwise _).mp h).filter p)

theorem tsNondec_append_last {l : List Event} {e : Event}
    (h : tsNondecB l = true) (hle : ∀ x ∈ l, x.ts ≤ e.ts) :
    tsNondecB (l ++ [e]) = true := by
  refine (tsNondec_pairwise _).mpr (List.pairwise_append.mpr ?_)
  refine ⟨(tsNondec_pairwise _).mp h, by simp, ?_⟩
  intro x hx y hy
  simp at hy
  subst hy
  exact hle x hx

theorem insertTs_length (e : Event) (l : List Event) :
    (insertTs e l).length = l.length + 1 := by
  induction l with
  | nil => simp [insertTs]
  | cons a rest ih =>
    by_cases h : e.ts ≤ a.ts <;> simp [insertTs, h, ih]

theorem sortTs_length (l : List Event) : (sortTs l).length = l.length := by
  induction l with
  | nil => simp [sortTs]
  | cons a rest ih => simp [sortTs, insertTs_length, ih]

/-! ### Ledger event-content lemmas -/

theorem allEvents_cons (b : MBucket) (bm : BucketMap) (L : Ledger) :
    allEvents ((b, bm) :: L) = bmEvents b bm ++ allEvents L := by
  simp [allEvents, bmEvents]

theorem allEvents_append (L1 L2 : Ledger) :
    allEvents (L1 ++ L2) = allEvents L1 ++ allEvents L2 := by
  simp [allEvents]

theorem bmEvents_append (b : MBucket) (bm1 bm2 : BucketMap) :
    bmEvents b (bm1 ++ bm2) = bmEvents b bm1 ++ bmEvents b bm2 := by
  simp [bmEvents]

theorem bmEvents_alSet_absent_nil (b : MBucket) (bm : BucketMap) (f : String)
    (h : alGet bm f = none) : bmEvents b (alSet bm f []) = bmEvents b bm := by
  rw [alSet_absent bm f [] h, bmEvents_append]
  simp [bmEvents]

theorem allEvents_alSet_present (L : Ledger) (b : MBucket) {bm : BucketMap}
    (bm' : BucketMap) (h : alGet L b = some bm)
    (he : bmEvents b bm' = bmEvents b bm) :
    allEvents (alSet L b bm') = allEvents L := by
  induction L with
  | nil => simp [alGet] at h
  | cons p rest ih =>
    obtain ⟨pk, pv⟩ := p
    by_cases h1 : pk = b
    · subst h1
      simp [alGet] at h
      subst h
      simp [alSet, allEvents_cons, he]
    · simp [alGet, h1] at h
      simp [alSet, h1, allEvents_cons, ih h]

theorem allEvents_ensure (L : Ledger) (b : MBucket) (f : String) :
    allEvents (RateLimitStore.ensure_entry L b f) = allEvents L := by
  cases hb : alGet L b with
  | none =>
    simp only [RateLimitStore.ensure_entry, hb]
    rw [alSet_absent L b _ hb, allEvents_append]
    simp [allEvents_cons, allEvents, bmEvents]
  | some bm =>
    cases hf : alGet bm f with
    | none =>
      simp only [RateLimitStore.ensure_entry, hb, hf]
      exact allEvents_alSet_present L b _ hb (bmEvents_alSet_absent_nil b bm f hf)
    | some _ => simp only [RateLimitStore.ensure_entry, hb, hf]

theorem entriesOfD_ensure (L : Ledger) (b : MBucket) (f : String)
    (b' : MBucket) (f' : String) :
    entriesOfD (RateLimitStore.ensure_entry L b f) b' f' = entriesOfD L b' f' := by
  cases hb : alGet L b with
  | none =>
    simp only [RateLimitStore.ensure_entry, hb]
    by_cases h1 : b = b'
    · subst h1
      by_cases h2 : f = f' <;>
        simp [entriesOfD, alGet_alSet, hb, alGet, h2]
    · simp [entriesOfD, alGet_alSet, h1]
  | some bm =>
    cases hf : alGet bm f with
    | none =>
      simp only [RateLimitStore.ensure_entry, hb, hf]
      by_cases h1 : b = b'
      · subst h1
        by_cases h2 : f = f'
        · subst h2
          simp [entriesOfD, alGet_alSet, hb, hf]
        · simp [entriesOfD, alGet_alSet, hb, hf, h2]
      · simp [entriesOfD, alGet_alSet, h1]
    | some _ => simp only [RateLimitStore.ensure_entry, hb, hf]

theorem entriesOfD_set (L : Ledger) (b : MBucket) (f : String)
    (es : List Event) (b' : MBucket) (f' : String) :
    entriesOfD (RateLimitStore.set_entries L b f es) b' f' =
      if b = b' ∧ f = f' then es else entriesOfD L b' f' := by
  cases hb : alGet L b with
  | none =>
    simp only [RateLimitStore.set_entries, hb]
    by_cases h1 : b = b'
    · subst h1
      by_cases h2 : f = f' <;>
        simp [entriesOfD, alGet_alSet, hb, alGet, h2]
    · simp [entriesOfD, alGet_alSet, h1]
  | some bm =>
    simp only [RateLimitStore.set_entries, hb]
    by_cases h1 : b = b'
    · subst h1
      by_cases h2 : f = f' <;>
        simp [entriesOfD, alGet_alSet, hb, h2]
    · simp [entriesOfD, alGet_alSet, h1]

theorem mem_allEvents {L : Ledger} {b : MBucket} {f : String} {e : Event} :
    (b, f, e) ∈ allEvents L ↔
      ∃ bm, (b, bm) ∈ L ∧ ∃ es, (f, es) ∈ bm ∧ e ∈ es := by
  simp only [allEvents, List.mem_flatten, List.mem_map]
  constructor
  · rintro ⟨l, ⟨⟨bk, bv⟩, hbp, rfl⟩, hl⟩
    rcases List.mem_flatten.mp hl with ⟨l2, hl2, hmem⟩
    rcases List.mem_map.mp hl2 with ⟨⟨fk, fv⟩, hfe, rfl⟩
    rcases List.mem_map.mp hmem with ⟨e0, he0, heq⟩
    simp at heq
    obtain ⟨rfl, rfl, rfl⟩ := heq
    exact ⟨bv, hbp, fv, hfe, he0⟩
  · rintro ⟨bm, hbm, es, hes, he⟩
    refine ⟨_, ⟨(b, bm), hbm, rfl⟩, ?_⟩
    apply List.mem_flatten.mpr
    refine ⟨es.map fun e => (b, f, e), ?_, ?_⟩
    · exact List.mem_map.mpr ⟨(f, es), hes, rfl⟩
    · exact List.mem_map.mpr ⟨e, he, rfl⟩

theorem mem_allEvents_of_entriesOfD {L : Ledger} {b : MBucket} {f : String}
    {e : Event} (h : e ∈ entriesOfD L b f) : (b, f, e) ∈ allEvents L := by
  cases hb : alGet L b with
  | none => simp [entriesOfD, hb] at h
  | some bm =>
    cases hf : alGet bm f with
    | none => simp [entriesOfD, hb, hf] at h
    | some es =>
      simp only [entriesOfD, hb, hf, Option.getD_some] at h
      exact mem_allEvents.mpr ⟨bm, alGet_mem hb, es, alGet_mem hf, h⟩

theorem mem_allEvents_set {L : Ledger} {b : MBucket} {f : String}
    {es : List Event} {b' : MBucket} {f' : String} {e : Event}
    (h : (b', f', e) ∈ allEvents (RateLimitStore.set_entries L b f es)) :
    (b', f', e) ∈ allEvents L ∨ (b' = b ∧ f' = f ∧ e ∈ es) := by
  rcases mem_allEvents.mp h with ⟨bm', hbm', es', hes', he⟩
  cases hb : alGet L b with
  | none =>
    rw [RateLimitStore.set_entries, hb] at hbm'
    rcases mem_alSet hbm' with h2 | h2
    · obtain ⟨h3, h4⟩ := Prod.mk.injEq .. ▸ h2
      subst h3
      rw [h4] at hes'
      simp at hes'
      obtain ⟨rfl, rfl⟩ := hes'
      exact Or.inr ⟨rfl, rfl, he⟩
    · exact Or.inl (mem_allEvents.mpr ⟨bm', h2, es', hes', he⟩)
  | some bm =>
    rw [RateLimitStore.set_entries, hb] at hbm'
    rcases mem_alSet hbm' with h2 | h2
    · obtain ⟨h3, h4⟩ := Prod.mk.injEq .. ▸ h2
      subst h3
      rw [h4] at hes'
      rcases mem_alSet hes' with h5 | h5
      · obtain ⟨h6, h7⟩ := Prod.mk.injEq .. ▸ h5
        subst h6
        rw [h7] at he
        exact Or.inr ⟨rfl, rfl, he⟩
      · exact Or.inl (mem_allEvents.mpr ⟨bm, alGet_mem hb, es', h5, he⟩)
    · exact Or.inl (mem_allEvents.mpr ⟨bm', h2, es', hes', he⟩)

/-! ### Sortedness and bound preservation lemmas -/

theorem ledgerSortedB_iff {L : Ledger} :
    ledgerSortedB L = true ↔ ∀ bp ∈ L, ∀ fe ∈ bp.2, tsNondecB fe.2 = true := by
  simp [ledgerSortedB, List.all_eq_true]

theorem sorted_entriesOfD {L : Ledger} {b : MBucket} {f : String}
    (hL : ledgerSortedB L = true) : tsNondecB (entriesOfD L b f) = true := by
  cases hb : alGet L b with
  | none => simp [entriesOfD, hb, tsNondecB]
  | some bm =>
    cases hf : alGet bm f with
    | none => simp [entriesOfD, hb, hf, tsNondecB]
    | some es =>
      simp only [entriesOfD, hb, hf, Option.getD_some]
      exact ledgerSortedB_iff.mp hL (b, bm) (alGet_mem hb) (f, es) (alGet_mem hf)

theorem ledgerSorted_set {L : Ledger} {b : MBucket} {f : String}
    {es : List Event} (hL : ledgerSortedB L = true)
    (hes : tsNondecB es = true) :
    ledgerSortedB (RateLimitStore.set_entries L b f es) = true := by
  apply ledgerSortedB_iff.mpr
  intro bp hbp fe hfe
  cases hb : alGet L b with
  | none =>
    simp only [RateLimitStore.set_entries, hb] at hbp
    rcases mem_alSet hbp with h2 | h2
    · rw [h2] at hfe
      simp at hfe
      rw [hfe]
      exact hes
    · exact ledgerSortedB_iff.mp hL bp h2 fe hfe
  | some bm =>
    simp only [RateLimitStore.set_entries, hb] at hbp
    rcases mem_alSet hbp with h2 | h2
    · rw [h2] at hfe
      simp only at hfe
      rcases mem_alSet hfe with h3 | h3
      · rw [h3]
        exact hes
      · exact ledgerSortedB_iff.mp hL (b, bm) (alGet_mem hb) fe h3
    · exact ledgerSortedB_iff.mp hL bp h2 fe hfe

theorem ledgerSorted_ensure {L : Ledger} {b : MBucket} {f : String}
    (hL : ledgerSortedB L = true) :
    ledgerSortedB (RateLimitStore.ensure_entry L b f) = true := by
  apply ledgerSortedB_iff.mpr
  intro bp hbp fe hfe
  cases hb : alGet L b with
  | none =>
    simp only [RateLimitStore.ensure_entry, hb] at hbp
    rcases mem_alSet hbp with h2 | h2
    · rw [h2] at hfe
      simp at hfe
      rw [hfe]
      simp [tsNondecB]
    · exact ledgerSortedB_iff.mp hL bp h2 fe hfe
  | some bm =>
    cases hf : alGet bm f with
    | none =>
      simp only [RateLimitStore.ensure_entry, hb, hf] at hbp
      rcases mem_alSet hbp with h2 | h2
      · rw [h2] at hfe
        simp only at hfe
        rcases mem_alSet hfe with h3 | h3
        · rw [h3]
          simp [tsNondecB]
        · exact ledgerSortedB_iff.mp hL (b, bm) (alGet_mem hb) fe h3
      · exact ledgerSortedB_iff.mp hL bp h2 fe hfe
    | some _ =>
      simp only [RateLimitStore.ensure_entry, hb, hf] at hbp
      exact ledgerSortedB_iff.mp hL bp hbp fe hfe

theorem eventsLE_ensure {L : Ledger} {b : MBucket} {f : String} {t : Int}
    (h : eventsLE L t) : eventsLE (RateLimitStore.ensure_entry L b f) t := by
  intro x hx
  rw [allEvents_ensure] at hx
  exact h x hx

theorem eventsLE_set {L : Ledger} {b : MBucket} {f : String}
    {es : List Event} {t : Int} (h : eventsLE L t)
    (hes : ∀ e ∈ es, e.ts ≤ t) :
    eventsLE (RateLimitStore.set_entries L b f es) t := by
  rintro ⟨b', f', e⟩ hx
  rcases mem_allEvents_set hx with h2 | h2
  · exact h _ h2
  · exact hes e h2.2.2

theorem eventsLE_mono {L : Ledger} {t t' : Int} (h : eventsLE L t)
    (htt : t ≤ t') : eventsLE L t' :=
  fun x hx => le_trans (h x hx) htt

theorem eventsLE_entriesOfD {L : Ledger} {b : MBucket} {f : String} {t : Int}
    (h : eventsLE L t) : ∀ e ∈ entriesOfD L b f, e.ts ≤ t :=
  fun e he => h (b, f, e) (mem_allEvents_of_entriesOfD he)

/-! ### Prune lemmas -/

theorem mem_prune_fps {c : Int} {bm : BucketMap} {fe : String × List Event}
    (h : fe ∈ (RateLimitStore.prune_fps c bm).1) :
    ∃ es₀, (fe.1, es₀) ∈ bm ∧
      fe.2 = es₀.filter (fun e => decide (c ≤ e.ts)) := by
  induction bm with
  | nil => simp [RateLimitStore.prune_fps] at h
  | cons p rest ih =>
    obtain ⟨pf, pes⟩ := p
    by_cases hk : (pes.filter fun e => decide (c ≤ e.ts)).isEmpty
    · simp only [RateLimitStore.prune_fps, hk, if_true] at h
      rcases ih h with ⟨es₀, hm, he⟩
      exact ⟨es₀, by simp [hm], he⟩
    · simp only [RateLimitStore.prune_fps, hk, if_false] at h
      rcases List.mem_cons.mp h with h2 | h2
      · refine ⟨pes, ?_, ?_⟩
        · rw [h2]; simp
        · rw [h2]
      · rcases ih h2 with ⟨es₀, hm, he⟩
        exact ⟨es₀, by simp [hm], he⟩

theorem mem_prune_fps_ne_nil {c : Int} {bm : BucketMap}
    {fe : String × List Event}
    (h : fe ∈ (RateLimitStore.prune_fps c bm).1) : fe.2 ≠ [] := by
  induction bm with
  | nil => simp [RateLimitStore.prune_fps] at h
  | cons p rest ih =>
    obtain ⟨pf, pes⟩ := p
    by_cases hk : (pes.filter fun e => decide (c ≤ e.ts)).isEmpty
    · simp only [RateLimitStore.prune_fps, hk, if_true] at h
      exact ih h
    · simp only [RateLimitStore.prune_fps, hk, if_false] at h
      rcases List.mem_cons.mp h with h2 | h2
      · rw [h2]
        simpa [List.isEmpty_iff] using hk
      · exact ih h2

theorem mem_prune_buckets {c : Int} {L : Ledger} {bp : MBucket × BucketMap}
    (h : bp ∈ (RateLimitStore.prune_buckets c L).1) :
    ∃ bm₀, (bp.1, bm₀) ∈ L ∧ bp.2 = (RateLimitStore.prune_fps c bm₀).1 := by
  induction L with
  | nil => simp [RateLimitStore.prune_buckets] at h
  | cons p rest ih =>
    obtain ⟨pb, pbm⟩ := p
    by_cases hk : (RateLimitStore.prune_fps c pbm).1.isEmpty
    · simp only [RateLimitStore.prune_buckets, hk, if_true] at h
      rcases ih h with ⟨bm₀, hm, he⟩
      exact ⟨bm₀, by simp [hm], he⟩
    · simp only [RateLimitStore.prune_buckets, hk, if_false] at h
      rcases List.mem_cons.mp h with h2 | h2
      · refine ⟨pbm, ?_, ?_⟩
        · rw [h2]; simp
        · rw [h2]
      · rcases ih h2 with ⟨bm₀, hm, he⟩
        exact ⟨bm₀, by simp [hm], he⟩

theorem mem_prune_buckets_ne_nil {c : Int} {L : Ledger}
    {bp : MBucket × BucketMap}
    (h : bp ∈ (RateLimitStore.prune_buckets c L).1) : bp.2 ≠ [] := by
  induction L with
  | nil => simp [RateLimitStore.prune_buckets] at h
  | cons p rest ih =>
    obtain ⟨pb, pbm⟩ := p
    by_cases hk : (RateLimitStore.prune_fps c pbm).1.isEmpty
    · simp only [RateLimitStore.prune_buckets, hk, if_true] at h
      exact ih h
    · simp only [RateLimitStore.prune_buckets, hk, if_false] at h
      rcases List.mem_cons.mp h with h2 | h2
      · rw [h2]
        simpa [List.isEmpty_iff] using hk
      · exact ih h2

theorem mem_allEvents_prune {c : Int} {L : Ledger}
    {x : MBucket × String × Event}
    (h : x ∈ allEvents (RateLimitStore.prune_buckets c L).1) :
    x ∈ allEvents L ∧ c ≤ x.2.2.ts := by
  obtain ⟨b, f, e⟩ := x
  rcases mem_allEvents.mp h with ⟨bm, hbm, es, hes, he⟩
  rcases mem_prune_buckets hbm with ⟨bm₀, hbm₀, hbme⟩
  simp only at hbme
  rw [hbme] at hes
  rcases mem_prune_fps hes with ⟨es₀, hes₀, hese⟩
  simp only at hese
  rw [hese] at he
  rcases List.mem_filter.mp he with ⟨he₀, hts⟩
  refine ⟨mem_allEvents.mpr ⟨bm₀, hbm₀, es₀, hes₀, he₀⟩, ?_⟩
  simpa using hts

theorem ledgerSorted_prune {c : Int} {L : Ledger}
    (h : ledgerSortedB L = true) :
    ledgerSortedB (RateLimitStore.prune_buckets c L).1 = true := by
  apply ledgerSortedB_iff.mpr
  intro bp hbp fe hfe
  rcases mem_prune_buckets hbp with ⟨bm₀, hbm₀, hbme⟩
  rw [hbme] at hfe
  rcases mem_prune_fps hfe with ⟨es₀, hes₀, hese⟩
  rw [hese]
  exact tsNondec_filter _ (ledgerSortedB_iff.mp h (bp.1, bm₀) hbm₀ (fe.1, es₀) hes₀)

theorem ledgerNoEmpty_prune (c : Int) (L : Ledger) :
    ledgerNoEmptyB (RateLimitStore.prune_buckets c L).1 = true := by
  simp only [ledgerNoEmptyB, List.all_eq_true, Bool.and_eq_true]
  intro bp hbp
  refine ⟨by simpa [List.isEmpty_iff] using mem_prune_buckets_ne_nil hbp, ?_⟩
  intro fe hfe
  rcases mem_prune_buckets hbp with ⟨bm₀, _, hbme⟩
  rw [hbme] at hfe
  simpa [List.isEmpty_iff] using mem_prune_fps_ne_nil hfe

theorem eventsLE_prune {c : Int} {L : Ledger} {t : Int} (h : eventsLE L t) :
    eventsLE (RateLimitStore.prune_buckets c L).1 t :=
  fun x hx => h x (mem_allEvents_prune hx).1

theorem eventsGE_prune (c : Int) (L : Ledger) :
    eventsGE (RateLimitStore.prune_buckets c L).1 c :=
  fun _ hx => (mem_allEvents_prune hx).2

/-! ### State-level wrapper lemmas -/

theorem prune_locked_events (now : Int) (s : StoreState) :
    (RateLimitStore.prune_locked now s).1.events =
      (RateLimitStore.prune_buckets (now - RPD_WINDOW_SECONDS) s.events).1 := by
  simp only [RateLimitStore.prune_locked]
  by_cases h : (RateLimitStore.prune_buckets (now - RPD_WINDOW_SECONDS) s.events).2 <;>
    simp [h]

theorem prune_locked_next_id (now : Int) (s : StoreState) :
    (RateLimitStore.prune_locked now s).1.next_id = s.next_id := by
  simp only [RateLimitStore.prune_locked]
  by_cases h : (RateLimitStore.prune_buckets (now - RPD_WINDOW_SECONDS) s.events).2 <;>
    simp [h]

theorem entries_locked_fst (s : StoreState) (b : MBucket) (f : String) :
    (RateLimitStore.entries_locked s b f).1 = entriesOfD s.events b f := by
  simp only [RateLimitStore.entries_locked]
  exact entriesOfD_ensure s.events b f b f

theorem entries_locked_snd_events (s : StoreState) (b : MBucket) (f : String) :
    (RateLimitStore.entries_locked s b f).2.events =
      RateLimitStore.ensure_entry s.events b f := rfl

theorem entries_locked_snd_entriesOfD (s : StoreState) (b : MBucket)
    (f : String) (b' : MBucket) (f' : String) :
    entriesOfD (RateLimitStore.entries_locked s b f).2.events b' f' =
      entriesOfD s.events b' f' :=
  entriesOfD_ensure s.events b f b' f'

theorem eventsGE_ensure {L : Ledger} {b : MBucket} {f : String} {t : Int}
    (h : eventsGE L t) : eventsGE (RateLimitStore.ensure_entry L b f) t := by
  intro x hx
  rw [allEvents_ensure] at hx
  exact h x hx

theorem eventsGE_set {L : Ledger} {b : MBucket} {f : String}
    {es : List Event} {t : Int} (h : eventsGE L t)
    (hes : ∀ e ∈ es, t ≤ e.ts) :
    eventsGE (RateLimitStore.set_entries L b f es) t := by
  rintro ⟨b', f', e⟩ hx
  rcases mem_allEvents_set hx with h2 | h2
  · exact h _ h2
  · exact hes e h2.2.2

theorem eventsGE_entriesOfD {L : Ledger} {b : MBucket} {f : String} {t : Int}
    (h : eventsGE L t) : ∀ e ∈ entriesOfD L b f, t ≤ e.ts :=
  fun e he => h (b, f, e) (mem_allEvents_of_entriesOfD he)

/-! ### update_event lemmas -/

theorem mem_update_event {event_id : Nat} {now : Int} {es : List Event}
    {e' : Event} (h : e' ∈ (RateLimitStore.update_event event_id now es).1) :
    e' ∈ es ∨ ∃ e ∈ es, e' = { e with ts := max e.ts now } := by
  induction es with
  | nil => simp [RateLimitStore.update_event] at h
  | cons a rest ih =>
    by_cases ha : a.id = event_id
    · simp only [RateLimitStore.update_event, ha, if_true] at h
      rcases List.mem_cons.mp h with h2 | h2
      · exact Or.inr ⟨a, List.mem_cons_self a rest, by rw [ha]; exact h2⟩
      · exact Or.inl (by simp [h2])
    · simp only [RateLimitStore.update_event, ha, if_false] at h
      rcases List.mem_cons.mp h with h2 | h2
      · exact Or.inl (by simp [h2])
      · rcases ih h2 with h3 | ⟨e, he, h3⟩
        · exact Or.inl (by simp [h3])
        · exact Or.inr ⟨e, by simp [he], h3⟩

theorem update_event_not_found {event_id : Nat} {now : Int} {es : List Event}
    (h : event_id ∉ es.map Event.id) :
    RateLimitStore.update_event event_id now es = (es, false) := by
  induction es with
  | nil => rfl
  | cons a rest ih =>
    simp only [List.map_cons, List.mem_cons] at h
    push_neg at h
    have ha : ¬a.id = event_id := fun hc => h.1 hc.symm
    simp [RateLimitStore.update_event, ha, ih h.2]

theorem update_event_found {event_id : Nat} {now : Int} {es : List Event}
    (hmem : event_id ∈ es.map Event.id)
    (hnodup : (es.map Event.id).Nodup) :
    RateLimitStore.update_event event_id now es =
      (es.map fun e =>
        if e.id = event_id then { e with ts := max e.ts now } else e, true) := by
  induction es with
  | nil => simp at hmem
  | cons a rest ih =>
    simp only [List.map_cons, List.nodup_cons] at hnodup
    by_cases ha : a.id = event_id
    · subst ha
      have hrest : ∀ e ∈ rest, ¬e.id = a.id := by
        intro e he hc
        exact hnodup.1 (hc ▸ List.mem_map_of_mem Event.id he)
      have hmap : rest.map (fun e =>
          if e.id = a.id then { e with ts := max e.ts now } else e) = rest := by
        have hcong : ∀ e ∈ rest,
            (if e.id = a.id then { e with ts := max e.ts now } else e) = e :=
          fun e he => by simp [hrest e he]
        rw [List.map_congr_left hcong]
        exact List.map_id rest
      simp [RateLimitStore.update_event, hmap]
    · have hmem2 : event_id ∈ rest.map Event.id := by
        rcases List.mem_cons.mp hmem with h2 | h2
        · exact absurd h2.symm ha
        · exact h2
      simp [RateLimitStore.update_event, ha, ih hmem2 hnodup.2]

/-! ### Loop preservation lemmas -/

theorem reserve_go_eventsGE {retry_after : Int} {bucket : MBucket}
    {api_keys : List String} {limits : Limits} {start_index : Nat} {now : Int}
    {t : Int} (ht : t ≤ now) (offsets : List Nat) :
    ∀ (waits : List Int) (s : StoreState), eventsGE s.events t →
      eventsGE ((RateLimitStore.reserve_go retry_after bucket api_keys limits
        start_index now offsets waits s).2).events t := by
  induction offsets with
  | nil =>
    intro waits s hs
    simpa only [RateLimitStore.reserve_go] using hs
  | cons offset rest ih =>
    intro waits s hs
    simp only [RateLimitStore.reserve_go]
    split
    · apply eventsGE_set (eventsGE_ensure hs)
      intro e he
      rcases List.mem_append.mp he with h2 | h2
      · rw [entries_locked_fst] at h2
        exact eventsGE_entriesOfD hs e h2
      · simp at h2
        rw [h2]
        exact ht
    · exact ih _ _ (eventsGE_ensure hs)

theorem snapshot_keys_snd_allEvents (retry_after : Int) (b : MBucket)
    (limits : Limits) (now : Int) (keys : List String) :
    ∀ (s : StoreState) (rpm_t rpd_t : Int) (any_av : Bool) (blocked : List Int),
      allEvents ((RateLimitStore.snapshot_keys retry_after b limits now keys s
        rpm_t rpd_t any_av blocked).2).events = allEvents s.events := by
  induction keys with
  | nil =>
    intro s rpm_t rpd_t any_av blocked
    rfl
  | cons k rest ih =>
    intro s rpm_t rpd_t any_av blocked
    simp only [RateLimitStore.snapshot_keys]
    split
    · rw [ih]
      exact allEvents_ensure s.events b (fingerprint_api_key k)
    · rw [ih]
      exact allEvents_ensure s.events b (fingerprint_api_key k)

theorem snapshot_keys_snd_entriesOfD (retry_after : Int) (b : MBucket)
    (limits : Limits) (now : Int) (keys : List String) (b' : MBucket)
    (f' : String) :
    ∀ (s : StoreState) (rpm_t rpd_t : Int) (any_av : Bool) (blocked : List Int),
      entriesOfD ((RateLimitStore.snapshot_keys retry_after b limits now keys s
        rpm_t rpd_t any_av blocked).2).events b' f' =
        entriesOfD s.events b' f' := by
  induction keys with
  | nil =>
    intro s rpm_t rpd_t any_av blocked
    rfl
  | cons k rest ih =>
    intro s rpm_t rpd_t any_av blocked
    simp only [RateLimitStore.snapshot_keys]
    split
    · rw [ih]
      exact entriesOfD_ensure s.events b (fingerprint_api_key k) b' f'
    · rw [ih]
      exact entriesOfD_ensure s.events b (fingerprint_api_key k) b' f'

theorem snapshot_keys_sorted (retry_after : Int) (b : MBucket)
    (limits : Limits) (now : Int) (keys : List String) :
    ∀ (s : StoreState) (rpm_t rpd_t : Int) (any_av : Bool) (blocked : List Int),
      ledgerSortedB s.events = true →
      ledgerSortedB ((RateLimitStore.snapshot_keys retry_after b limits now keys
        s rpm_t rpd_t any_av blocked).2).events = true := by
  induction keys with
  | nil =>
    intro s rpm_t rpd_t any_av blocked hs
    exact hs
  | cons k rest ih =>
    intro s rpm_t rpd_t any_av blocked hs
    simp only [RateLimitStore.snapshot_keys]
    split
    · exact ih _ _ _ _ _ (ledgerSorted_ensure hs)
    · exact ih _ _ _ _ _ (ledgerSorted_ensure hs)

theorem snapshot_bucket_snd (retry_after : Int) (b : MBucket)
    (keys : List String) (limits : Limits) (enabled : Bool) (now : Int)
    (s : StoreState) :
    (RateLimitStore.snapshot_bucket retry_after b keys limits enabled now s).2 =
      (RateLimitStore.snapshot_keys retry_after b limits now keys s
        0 0 false []).2 := rfl

/-! ### Claim C7 -/

/-- C7: immediately after any public store operation (reserve_key,
finalize_reservation, snapshot) executed at time `now`, the ledger
contains no event with `ts < now - 86400` (every event satisfies
`now - RPD_WINDOW_SECONDS ≤ ts`). -/
theorem public_ops_bounded_age (s : StoreState) (op : StoreOp) :
    eventsGE (StoreOp.apply s op).events (op.time - RPD_WINDOW_SECONDS) := by
  cases op with
  | reserve retry_after bucket api_keys limits start_index now =>
    have hp : eventsGE (RateLimitStore.prune_locked now s).1.events
        (now - RPD_WINDOW_SECONDS) := by
      rw [prune_locked_events]
      exact eventsGE_prune _ _
    simp only [StoreOp.apply, StoreOp.time, RateLimitStore.reserve_key]
    split
    · exact hp
    · exact reserve_go_eventsGE (by simp [RPD_WINDOW_SECONDS]) _ _ _ hp
  | finalize res now =>
    have hp : eventsGE (RateLimitStore.prune_locked now s).1.events
        (now - RPD_WINDOW_SECONDS) := by
      rw [prune_locked_events]
      exact eventsGE_prune _ _
    have hpe : eventsGE
        (RateLimitStore.entries_locked (RateLimitStore.prune_locked now s).1
          res.model_bucket res.key_fingerprint).2.events
        (now - RPD_WINDOW_SECONDS) := eventsGE_ensure hp
    simp only [StoreOp.apply, StoreOp.time, RateLimitStore.finalize_reservation]
    split
    · apply eventsGE_set hpe
      intro e' he'
      rcases mem_update_event he' with h2 | ⟨e, he, h2⟩
      · rw [entries_locked_fst] at h2
        exact eventsGE_entriesOfD hp e' h2
      · rw [entries_locked_fst] at he
        have := eventsGE_entriesOfD hp e he
        rw [h2]
        simp only
        exact le_trans this (le_max_left _ _)
    · exact hpe
  | snap retry_after api_keys limits_by_bucket enabled now =>
    have hp : eventsGE (RateLimitStore.prune_locked now s).1.events
        (now - RPD_WINDOW_SECONDS) := by
      rw [prune_locked_events]
      exact eventsGE_prune _ _
    simp only [StoreOp.apply, StoreOp.time, RateLimitStore.snapshot,
      snapshot_bucket_snd]
    intro x hx
    rw [snapshot_keys_snd_allEvents, snapshot_keys_snd_allEvents] at hx
    exact hp x hx

theorem public_ops_bounded_age_witness :
    (MBucket.nano_banana, "k", Event.mk 0 100 0) ∈
        allEvents (StoreOp.apply (empty_state 0)
          (StoreOp.reserve 30 MBucket.nano_banana ["k"] ⟨2, 10⟩ 0 100)).events ∧
      (StoreOp.reserve 30 MBucket.nano_banana ["k"] ⟨2, 10⟩ 0 100).time -
          RPD_WINDOW_SECONDS ≤ (100 : Int) :=
  ⟨by decide,
    public_ops_bounded_age (empty_state 0)
      (StoreOp.reserve 30 MBucket.nano_banana ["k"] ⟨2, 10⟩ 0 100)
      (MBucket.nano_banana, "k", Event.mk 0 100 0) (by decide)⟩

/-! ### Claim C2 -/

/-- C2 counterexample: a single `snapshot` call on the empty ledger with a
one-key pool leaves a fingerprint mapped to an empty event list (the
`_entries_locked` lookups insert empty entries that the operation never
removes), so the claimed invariant fails immediately after a public
operation. -/
theorem snapshot_leaves_empty_fingerprint_entry :
    ledgerNoEmptyB (StoreOp.apply (empty_state 0)
      (StoreOp.snap 30 ["k"] (fun _ => ⟨500, 2000⟩) true 0)).events = false := by
  decide

/-- C2 amended: immediately after the internal prune step performed at the
start of every public store operation, no fingerprint maps to an empty
event list and no bucket maps to an empty fingerprint submap (the
operations may later insert empty entries via `_entries_locked`). -/
theorem prune_removes_empty_submaps (now : Int) (s : StoreState) :
    ledgerNoEmptyB (RateLimitStore.prune_locked now s).1.events = true := by
  rw [prune_locked_events]
  exact ledgerNoEmpty_prune _ _

/-! ### Claim C1 -/

/-- C1 counterexample: starting from the empty ledger, two reservations on
the same key at times 100 and 101 followed by a finalization of the first
event at time 102 leave the event list `[ts 102, ts 101]`, which is not
non-decreasing in `ts`. -/
theorem finalize_breaks_ts_order :
    ledgerSortedB (runOps (empty_state 0)
      [StoreOp.reserve 30 MBucket.nano_banana ["k"] ⟨2, 10⟩ 0 100,
       StoreOp.reserve 30 MBucket.nano_banana ["k"] ⟨2, 10⟩ 0 101,
       StoreOp.finalize ⟨MBucket.nano_banana, "k", 0⟩ 102]).events = false := by
  decide

theorem reserve_go_sorted_le {retry_after : Int} {bucket : MBucket}
    {api_keys : List String} {limits : Limits} {start_index : Nat} {now : Int}
    (offsets : List Nat) :
    ∀ (waits : List Int) (s : StoreState), ledgerSortedB s.events = true →
      eventsLE s.events now →
      ledgerSortedB ((RateLimitStore.reserve_go retry_after bucket api_keys
        limits start_index now offsets waits s).2).events = true ∧
      eventsLE ((RateLimitStore.reserve_go retry_after bucket api_keys limits
        start_index now offsets waits s).2).events now := by
  induction offsets with
  | nil =>
    intro waits s h1 h2
    exact ⟨h1, h2⟩
  | cons offset rest ih =>
    intro waits s h1 h2
    simp only [RateLimitStore.reserve_go]
    split
    · constructor
      · apply ledgerSorted_set (ledgerSorted_ensure h1)
        apply tsNondec_append_last
        · rw [entries_locked_fst]
          exact sorted_entriesOfD h1
        · intro x hx
          rw [entries_locked_fst] at hx
          exact eventsLE_entriesOfD h2 x hx
      · apply eventsLE_set (eventsLE_ensure h2)
        intro e he
        rcases List.mem_append.mp he with h3 | h3
        · rw [entries_locked_fst] at h3
          exact eventsLE_entriesOfD h2 e h3
        · simp at h3
          rw [h3]
    · exact ih _ _ (ledgerSorted_ensure h1) (eventsLE_ensure h2)

theorem op_preserves_sorted_le {s : StoreState} {t : Int} (op : StoreOp)
    (h1 : ledgerSortedB s.events = true) (h2 : eventsLE s.events t)
    (ht : t ≤ op.time) (hop : op.isFinalize = false) :
    ledgerSortedB (StoreOp.apply s op).events = true ∧
      eventsLE (StoreOp.apply s op).events op.time := by
  cases op with
  | reserve retry_after bucket api_keys limits start_index now =>
    simp only [StoreOp.time] at ht
    have hp1 : ledgerSortedB (RateLimitStore.prune_locked now s).1.events = true := by
      rw [prune_locked_events]
      exact ledgerSorted_prune h1
    have hp2 : eventsLE (RateLimitStore.prune_locked now s).1.events now := by
      rw [prune_locked_events]
      exact eventsLE_prune (eventsLE_mono h2 ht)
    simp only [StoreOp.apply, StoreOp.time, RateLimitStore.reserve_key]
    split
    · exact ⟨hp1, hp2⟩
    · exact reserve_go_sorted_le _ _ _ hp1 hp2
  | finalize res now => simp [StoreOp.isFinalize] at hop
  | snap retry_after api_keys limits_by_bucket enabled now =>
    simp only [StoreOp.time] at ht
    have hp1 : ledgerSortedB (RateLimitStore.prune_locked now s).1.events = true := by
      rw [prune_locked_events]
      exact ledgerSorted_prune h1
    have hp2 : eventsLE (RateLimitStore.prune_locked now s).1.events now := by
      rw [prune_locked_events]
      exact eventsLE_prune (eventsLE_mono h2 ht)
    simp only [StoreOp.apply, StoreOp.time, RateLimitStore.snapshot,
      snapshot_bucket_snd]
    constructor
    · exact snapshot_keys_sorted _ _ _ _ _ _ _ _ _ _
        (snapshot_keys_sorted _ _ _ _ _ _ _ _ _ _ hp1)
    · intro x hx
      rw [snapshot_keys_snd_allEvents, snapshot_keys_snd_allEvents] at hx
      exact hp2 x hx

/-- C1 amended: for every ledger state reachable from a sorted,
time-bounded start state (in particular the empty ledger or a freshly
loaded one, whose lists are sorted on load) by a chronological sequence of
`reserve_key` and `snapshot` operations, events within each
`(bucket, fingerprint)` list are non-decreasing in `ts`;
`finalize_reservation` is excluded because it can move a matched event's
timestamp past later entries in place. -/
theorem ts_order_without_finalize (s₀ : StoreState) (t₀ : Int)
    (ops : List StoreOp) (hsorted : ledgerSortedB s₀.events = true)
    (hbound : eventsLE s₀.events t₀)
    (hchrono : chronologicalB t₀ ops = true)
    (hnofin : ops.all (fun op => !op.isFinalize) = true) :
    ledgerSortedB (runOps s₀ ops).events = true := by
  induction ops generalizing s₀ t₀ with
  | nil => exact hsorted
  | cons op rest ih =>
    simp only [chronologicalB, Bool.and_eq_true, decide_eq_true_eq] at hchrono
    simp only [List.all_cons, Bool.and_eq_true, Bool.not_eq_true'] at hnofin
    have hstep := op_preserves_sorted_le op hsorted hbound hchrono.1 hnofin.1
    exact ih _ op.time hstep.1 hstep.2 hchrono.2 hnofin.2

theorem ts_order_without_finalize_witness :
    ledgerSortedB (runOps (empty_state 0)
      [StoreOp.reserve 30 MBucket.nano_banana ["a", "b"] ⟨1, 10⟩ 0 100,
       StoreOp.reserve 30 MBucket.nano_banana ["a", "b"] ⟨1, 10⟩ 1 105,
       StoreOp.snap 30 ["a", "b"] (fun _ => ⟨1, 10⟩) true 110,
       StoreOp.reserve 30 MBucket.nano_banana ["a", "b"] ⟨1, 10⟩ 0 200]).events
      = true :=
  ts_order_without_finalize (empty_state 0) 0 _ (by decide)
    (fun x hx => by simp [allEvents, empty_state] at hx) (by decide) (by decide)

/-! ### Claim C9 -/

/-- C9 counterexample: with the configured premium identifier empty and an
empty model identifier, the model identifier equals the configured premium
identifier, yet the classifier returns the standard bucket — the source
compares a candidate only when it is non-empty, which the claim omits. -/
theorem classify_empty_premium_id :
    ("" : String) = "" ∧
      classify_model_bucket "gemini-2.5-flash-image" "" "" none =
        MODEL_BUCKET_NANO ∧
      MODEL_BUCKET_NANO ≠ MODEL_BUCKET_PRO := by
  decide

/-- C9 amended: the classifier returns the premium bucket when the
stripped model identifier is non-empty and equals the stripped premium
identifier; else the standard bucket when it is non-empty and equals the
stripped standard identifier; otherwise the preferred identifier is
consulted, and only a non-empty stripped preferred identifier equal to the
premium identifier yields the premium bucket — everything else yields
standard. -/
theorem classify_model_bucket_spec (base_model pro_model model_name : String)
    (preferred_model : Option String) :
    (pyStrip model_name ≠ "" → pyStrip model_name = pyStrip pro_model →
      classify_model_bucket base_model pro_model model_name preferred_model =
        MODEL_BUCKET_PRO) ∧
    (pyStrip model_name ≠ "" → pyStrip model_name ≠ pyStrip pro_model →
      pyStrip model_name = pyStrip base_model →
      classify_model_bucket base_model pro_model model_name preferred_model =
        MODEL_BUCKET_NANO) ∧
    ((pyStrip model_name = "" ∨
        (pyStrip model_name ≠ pyStrip pro_model ∧
          pyStrip model_name ≠ pyStrip base_model)) →
      ((pyStrip (preferred_model.getD "") ≠ "" →
        pyStrip (preferred_model.getD "") = pyStrip pro_model →
        classify_model_bucket base_model pro_model model_name preferred_model =
          MODEL_BUCKET_PRO) ∧
      ((pyStrip (preferred_model.getD "") = "" ∨
          pyStrip (preferred_model.getD "") ≠ pyStrip pro_model) →
        classify_model_bucket base_model pro_model model_name preferred_model =
          MODEL_BUCKET_NANO))) := by
  refine ⟨?_, ?_, ?_⟩
  · intro h1 h2
    simp only [classify_model_bucket]
    rw [if_pos ⟨h1, h2⟩]
  · intro h1 h2 h3
    simp only [classify_model_bucket]
    rw [if_neg (fun hc => h2 hc.2), if_pos ⟨h1, h3⟩]
  · intro h1
    have hne : ¬(pyStrip model_name ≠ "" ∧
        pyStrip model_name = pyStrip pro_model) := by
      rcases h1 with h1 | h1
      · exact fun hc => hc.1 h1
      · exact fun hc => h1.1 hc.2
    have hne2 : ¬(pyStrip model_name ≠ "" ∧
        pyStrip model_name = pyStrip base_model) := by
      rcases h1 with h1 | h1
      · exact fun hc => hc.1 h1
      · exact fun hc => h1.2 hc.2
    constructor
    · intro h2 h3
      simp only [classify_model_bucket]
      rw [if_neg hne, if_neg hne2, if_pos ⟨h2, h3⟩]
    · intro h2
      have hne3 : ¬(pyStrip (preferred_model.getD "") ≠ "" ∧
          pyStrip (preferred_model.getD "") = pyStrip pro_model) := by
        rcases h2 with h2 | h2
        · exact fun hc => hc.1 h2
        · exact fun hc => h2 hc.2
      simp only [classify_model_bucket]
      rw [if_neg hne, if_neg hne2, if_neg hne3]

theorem classify_model_bucket_spec_witness :
    classify_model_bucket "gemini-2.5-flash-image"
        "gemini-3-pro-image-preview" "gemini-3-pro-image-preview" none =
      MODEL_BUCKET_PRO :=
  (classify_model_bucket_spec "gemini-2.5-flash-image"
    "gemini-3-pro-image-preview" "gemini-3-pro-image-preview" none).1
    (by decide) (by decide)

/-! ### Claim C5 -/

/-- C5: for every reservation whose event is present in the (pruned)
ledger, finalize_reservation sets that event's ts to `max (previous ts)
now`, leaves every other entry list unchanged, and consequently never
decreases any event's ts. -/
theorem finalize_updates_event (s : StoreState)
    (res : RateLimitStore.Reservation) (now : Int)
    (hmem : res.event_id ∈
      (entriesOfD (RateLimitStore.prune_locked now s).1.events
        res.model_bucket res.key_fingerprint).map Event.id)
    (hnodup : ((entriesOfD (RateLimitStore.prune_locked now s).1.events
      res.model_bucket res.key_fingerprint).map Event.id).Nodup) :
    (entriesOfD (RateLimitStore.finalize_reservation res now s).events
        res.model_bucket res.key_fingerprint =
      (entriesOfD (RateLimitStore.prune_locked now s).1.events
          res.model_bucket res.key_fingerprint).map fun e =>
        if e.id = res.event_id then { e with ts := max e.ts now } else e) ∧
    (∀ (b : MBucket) (f : String),
      ¬(b = res.model_bucket ∧ f = res.key_fingerprint) →
      entriesOfD (RateLimitStore.finalize_reservation res now s).events b f =
        entriesOfD (RateLimitStore.prune_locked now s).1.events b f) ∧
    (∀ e ∈ entriesOfD (RateLimitStore.finalize_reservation res now s).events
        res.model_bucket res.key_fingerprint,
      ∃ e₀ ∈ entriesOfD (RateLimitStore.prune_locked now s).1.events
          res.model_bucket res.key_fingerprint,
        e₀.id = e.id ∧ e₀.ts ≤ e.ts) := by
  have hu := @update_event_found res.event_id now
    (entriesOfD (RateLimitStore.prune_locked now s).1.events
      res.model_bucket res.key_fingerprint) hmem hnodup
  have hfin : RateLimitStore.finalize_reservation res now s =
      { (RateLimitStore.entries_locked (RateLimitStore.prune_locked now s).1
          res.model_bucket res.key_fingerprint).2 with
        events := RateLimitStore.set_entries
          (RateLimitStore.entries_locked (RateLimitStore.prune_locked now s).1
            res.model_bucket res.key_fingerprint).2.events
          res.model_bucket res.key_fingerprint
          ((entriesOfD (RateLimitStore.prune_locked now s).1.events
              res.model_bucket res.key_fingerprint).map fun e =>
            if e.id = res.event_id then { e with ts := max e.ts now } else e)
        updated_at := now } := by
    simp only [RateLimitStore.finalize_reservation, entries_locked_fst, hu]
    simp
  refine ⟨?_, ?_, ?_⟩
  · rw [hfin]
    simp only
    rw [RateLimitStore.entries_locked]
    simp only
    rw [entriesOfD_set]
    simp
  · intro b f hbf
    rw [hfin]
    simp only
    rw [RateLimitStore.entries_locked]
    simp only
    rw [entriesOfD_set]
    have hbf2 : ¬(res.model_bucket = b ∧ res.key_fingerprint = f) :=
      fun hc => hbf ⟨hc.1.symm, hc.2.symm⟩
    rw [if_neg hbf2]
    exact entriesOfD_ensure _ _ _ _ _
  · intro e he
    rw [hfin] at he
    simp only at he
    rw [RateLimitStore.entries_locked] at he
    simp only at he
    rw [entriesOfD_set] at he
    simp only [and_self, if_true] at he
    rcases List.mem_map.mp (by simpa using he) with ⟨e₀, he₀, heq⟩
    refine ⟨e₀, he₀, ?_⟩
    by_cases hid : e₀.id = res.event_id
    · rw [if_pos hid] at heq
      rw [← heq]
      exact ⟨rfl, le_max_left _ _⟩
    · rw [if_neg hid] at heq
      rw [← heq]
      exact ⟨rfl, le_refl _⟩

theorem finalize_updates_event_witness :
    entriesOfD (RateLimitStore.finalize_reservation
        ⟨MBucket.nano_banana, "f", 5⟩ 150
        ⟨[(MBucket.nano_banana, [("f", [⟨5, 100, 0⟩])])], 0, 6⟩).events
      MBucket.nano_banana "f" = [⟨5, 150, 0⟩] := by
  have h := (finalize_updates_event
    ⟨[(MBucket.nano_banana, [("f", [⟨5, 100, 0⟩])])], 0, 6⟩
    ⟨MBucket.nano_banana, "f", 5⟩ 150 (by decide) (by decide)).1
  rw [h]
  decide

/-! ### Claim C10 -/

/-- C10 counterexample: finalizing a reservation that matches no event on
the empty ledger changes the state beyond pruning — `_entries_locked`
inserts an empty entry list for the reservation's (bucket, fingerprint)
key, so the resulting ledger differs from the pruned ledger. -/
theorem finalize_missing_inserts_empty_entry :
    (RateLimitStore.finalize_reservation ⟨MBucket.nano_banana, "f", 0⟩ 0
        (empty_state 0)).events ≠
      (RateLimitStore.prune_locked 0 (empty_state 0)).1.events := by
  decide

/-- C10 amended: for every reservation whose (bucket, fingerprint,
event_id) matches no event in the pruned ledger, finalize_reservation adds
no events and leaves every surviving event's id, ts, and tokens unchanged;
beyond pruning, the only state change is the possible insertion of an
empty entry list for the reservation's (bucket, fingerprint) key by the
`_entries_locked` lookup. -/
theorem finalize_missing_event_frame (s : StoreState)
    (res : RateLimitStore.Reservation) (now : Int)
    (hnomem : res.event_id ∉
      (entriesOfD (RateLimitStore.prune_locked now s).1.events
        res.model_bucket res.key_fingerprint).map Event.id) :
    (∀ (b : MBucket) (f : String),
      entriesOfD (RateLimitStore.finalize_reservation res now s).events b f =
        entriesOfD (RateLimitStore.prune_locked now s).1.events b f) ∧
    allEvents (RateLimitStore.finalize_reservation res now s).events =
      allEvents (RateLimitStore.prune_locked now s).1.events ∧
    (RateLimitStore.finalize_reservation res now s).events =
      RateLimitStore.ensure_entry
        (RateLimitStore.prune_locked now s).1.events
        res.model_bucket res.key_fingerprint ∧
    (RateLimitStore.finalize_reservation res now s).next_id = s.next_id := by
  have hu := @update_event_not_found res.event_id now
    (entriesOfD (RateLimitStore.prune_locked now s).1.events
      res.model_bucket res.key_fingerprint) hnomem
  have hfin : RateLimitStore.finalize_reservation res now s =
      (RateLimitStore.entries_locked (RateLimitStore.prune_locked now s).1
        res.model_bucket res.key_fingerprint).2 := by
    simp only [RateLimitStore.finalize_reservation, entries_locked_fst, hu]
    simp
  rw [hfin]
  refine ⟨?_, ?_, ?_, ?_⟩
  · intro b f
    exact entries_locked_snd_entriesOfD _ _ _ _ _
  · rw [entries_locked_snd_events]
    exact allEvents_ensure _ _ _
  · exact entries_locked_snd_events _ _ _
  · rw [show (RateLimitStore.entries_locked (RateLimitStore.prune_locked now s).1
      res.model_bucket res.key_fingerprint).2.next_id =
        (RateLimitStore.prune_locked now s).1.next_id from rfl]
    exact prune_locked_next_id now s

theorem finalize_missing_event_frame_witness :
    allEvents (RateLimitStore.finalize_reservation
        ⟨MBucket.nano_banana, "f", 9⟩ 150
        ⟨[(MBucket.nano_banana, [("g", [⟨5, 100, 0⟩])])], 0, 6⟩).events =
      allEvents (RateLimitStore.prune_locked 150
        ⟨[(MBucket.nano_banana, [("g", [⟨5, 100, 0⟩])])], 0, 6⟩).1.events :=
  (finalize_missing_event_frame
    ⟨[(MBucket.nano_banana, [("g", [⟨5, 100, 0⟩])])], 0, 6⟩
    ⟨MBucket.nano_banana, "f", 9⟩ 150 (by decide)).2.1

/-! ### Claim C3 -/

/-- C3: the per-key wait computation returns the configured default
retry_after when either limit is zero or negative; with both limits
positive, each window at or over its limit contributes
`max 0 (sorted-window-events[used - limit].ts + window - now)`, the
result is `max 1` of the maximum contribution (the ceiling is the
identity on integral waits) and hence at least 1, and the result is 0
when neither window is at its limit. -/
theorem key_wait_seconds_spec (retry_after : Int) (entries : List Event)
    (limits : Limits) (now : Int) :
    (limits.rpm ≤ 0 ∨ limits.rpd ≤ 0 →
      RateLimitStore.key_wait_seconds_locked retry_after entries limits now =
        retry_after) ∧
    (0 < limits.rpm → 0 < limits.rpd →
      (window_contribs entries limits now = [] →
        RateLimitStore.key_wait_seconds_locked retry_after entries limits now
          = 0) ∧
      (∀ m, (window_contribs entries limits now).max? = some m →
        RateLimitStore.key_wait_seconds_locked retry_after entries limits now
          = max 1 m) ∧
      (window_contribs entries limits now ≠ [] →
        1 ≤ RateLimitStore.key_wait_seconds_locked retry_after entries limits
          now)) := by
  constructor
  · intro h
    simp only [RateLimitStore.key_wait_seconds_locked, if_pos h]
  · intro h1 h2
    have hneg : ¬(limits.rpm ≤ 0 ∨ limits.rpd ≤ 0) := by push_neg; omega
    have hlm : (RateLimitStore.usage_for_entries entries now).minute_events.length =
        (RateLimitStore.usage_for_entries entries now).rpm_used := by
      simp [RateLimitStore.usage_for_entries, sortTs_length]
    have hld : (RateLimitStore.usage_for_entries entries now).day_events.length =
        (RateLimitStore.usage_for_entries entries now).rpd_used := by
      simp [RateLimitStore.usage_for_entries, sortTs_length]
    have hkw : RateLimitStore.key_wait_seconds_locked retry_after entries limits now =
        (match window_contribs entries limits now with
         | [] => 0
         | w :: ws => max 1 (ws.foldl max w)) := by
      simp only [RateLimitStore.key_wait_seconds_locked, if_neg hneg]
      congr 1
      unfold window_contribs release_wait
      congr 1
      · by_cases hcase : limits.rpm ≤
            ((RateLimitStore.usage_for_entries entries now).rpm_used : Int)
        · have hlen : 0 <
              (RateLimitStore.usage_for_entries entries now).minute_events.length := by
            rw [hlm]; omega
          have hne : (RateLimitStore.usage_for_entries entries now).minute_events ≠ [] :=
            List.length_pos.mp hlen
          rw [if_pos ⟨hcase, hne⟩, if_pos hcase]
          have hidx : (max 0 (((RateLimitStore.usage_for_entries entries now).rpm_used : Int)
              - limits.rpm)).toNat =
              (RateLimitStore.usage_for_entries entries now).minute_events.length
                - limits.rpm.toNat := by
            rw [hlm]; omega
          rw [hidx]
        · rw [if_neg (fun hc => hcase hc.1), if_neg hcase]
      · by_cases hcase : limits.rpd ≤
            ((RateLimitStore.usage_for_entries entries now).rpd_used : Int)
        · have hlen : 0 <
              (RateLimitStore.usage_for_entries entries now).day_events.length := by
            rw [hld]; omega
          have hne : (RateLimitStore.usage_for_entries entries now).day_events ≠ [] :=
            List.length_pos.mp hlen
          rw [if_pos ⟨hcase, hne⟩, if_pos hcase]
          have hidx : (max 0 (((RateLimitStore.usage_for_entries entries now).rpd_used : Int)
              - limits.rpd)).toNat =
              (RateLimitStore.usage_for_entries entries now).day_events.length
                - limits.rpd.toNat := by
            rw [hld]; omega
          rw [hidx]
        · rw [if_neg (fun hc => hcase hc.1), if_neg hcase]
    refine ⟨?_, ?_, ?_⟩
    · intro hc
      rw [hkw, hc]
    · intro m hm
      cases hcontrib : window_contribs entries limits now with
      | nil => rw [hcontrib] at hm; simp [List.max?] at hm
      | cons w ws =>
        rw [hkw, hcontrib]
        rw [hcontrib] at hm
        simp only [List.max?, Option.some_inj] at hm
        show 1 ⊔ List.foldl max w ws = 1 ⊔ m
        rw [hm]
    · intro hc
      rcases List.exists_cons_of_ne_nil hc with ⟨w, ws, hcons⟩
      rw [hkw, hcons]
      show (1 : Int) ≤ 1 ⊔ List.foldl max w ws
      exact le_max_left 1 _

theorem key_wait_seconds_spec_witness :
    RateLimitStore.key_wait_seconds_locked 30
        [⟨7, 50, 0⟩, ⟨8, 90, 0⟩] ⟨1, 10⟩ 100 = max 1 50 :=
  ((key_wait_seconds_spec 30 [⟨7, 50, 0⟩, ⟨8, 90, 0⟩] ⟨1, 10⟩ 100).2
    (by decide) (by decide)).2.1 50 (by decide)

/-! ### Claim C4 -/

theorem reserve_go_all_unavailable {retry_after : Int} {bucket : MBucket}
    {api_keys : List String} {limits : Limits} {start_index : Nat} {now : Int}
    (offsets : List Nat) :
    ∀ (waits : List Int) (s : StoreState),
      (∀ o ∈ offsets, RateLimitStore.is_key_available_locked
        (entriesOfD s.events bucket (fingerprint_api_key
          (api_keys.getD ((start_index + o) % api_keys.length) "")))
        limits now = false) →
      (RateLimitStore.reserve_go retry_after bucket api_keys limits
        start_index now offsets waits s).1 =
        (none,
          max 1 (match waits ++ offsets.filterMap (fun o =>
            let w := RateLimitStore.key_wait_seconds_locked retry_after
              (entriesOfD s.events bucket (fingerprint_api_key
                (api_keys.getD ((start_index + o) % api_keys.length) "")))
              limits now
            if 0 < w then some w else none) with
          | [] => retry_after
          | w :: ws => RateLimitStore.listMin w ws)) := by
  induction offsets with
  | nil =>
    intro waits s _
    simp only [RateLimitStore.reserve_go, List.filterMap_nil, List.append_nil]
  | cons o rest ih =>
    intro waits s h
    have ho := h o (List.mem_cons_self o rest)
    simp only [RateLimitStore.reserve_go, entries_locked_fst, ho,
      Bool.false_eq_true, if_false]
    have hrest : ∀ o2 ∈ rest, RateLimitStore.is_key_available_locked
        (entriesOfD (RateLimitStore.entries_locked s bucket
          (fingerprint_api_key (api_keys.getD
            ((start_index + o) % api_keys.length) ""))).2.events bucket
          (fingerprint_api_key
            (api_keys.getD ((start_index + o2) % api_keys.length) "")))
        limits now = false := by
      intro o2 ho2
      rw [entries_locked_snd_entriesOfD]
      exact h o2 (List.mem_cons_of_mem o ho2)
    rw [ih _ _ hrest]
    simp only [entries_locked_snd_entriesOfD]
    by_cases hw : 0 < RateLimitStore.key_wait_seconds_locked retry_after
        (entriesOfD s.events bucket (fingerprint_api_key
          (api_keys.getD ((start_index + o) % api_keys.length) "")))
        limits now
    · simp only [hw, if_true, List.filterMap_cons]
      simp [List.append_assoc]
    · simp only [hw, if_false, List.filterMap_cons]

/-- C4: reserve_key with an empty key pool returns (null, default
retry_after); with a non-empty pool in which no key is available against
the pruned ledger, it returns (null, r) where r is max 1 of the minimum of
the positive per-key waits collected in probe order when any was
collected, else the default retry_after. -/
theorem reserve_key_refusal_spec (retry_after : Int) (bucket : MBucket)
    (api_keys : List String) (limits : Limits) (start_index : Nat) (now : Int)
    (s : StoreState) (hretry : 1 ≤ retry_after) :
    (api_keys = [] →
      (RateLimitStore.reserve_key retry_after bucket api_keys limits
        start_index now s).1 = (none, retry_after)) ∧
    (api_keys ≠ [] →
      (∀ k ∈ api_keys, RateLimitStore.is_key_available_locked
        (entriesOfD (RateLimitStore.prune_locked now s).1.events bucket
          (fingerprint_api_key k)) limits now = false) →
      (RateLimitStore.reserve_key retry_after bucket api_keys limits
        start_index now s).1 =
        (none,
          match collected_waits retry_after
            (RateLimitStore.prune_locked now s).1.events bucket limits now
            (probe_order api_keys start_index) with
          | [] => retry_after
          | w :: ws => max 1 (RateLimitStore.listMin w ws))) := by
  constructor
  · intro h
    subst h
    simp [RateLimitStore.reserve_key]
  · intro hne hunav
    have hlen : 0 < api_keys.length := List.length_pos.mpr hne
    have hoff : ∀ o ∈ List.range api_keys.length,
        RateLimitStore.is_key_available_locked
          (entriesOfD (RateLimitStore.prune_locked now s).1.events bucket
            (fingerprint_api_key
              (api_keys.getD ((start_index + o) % api_keys.length) "")))
          limits now = false := by
      intro o _
      have hidx : (start_index + o) % api_keys.length < api_keys.length :=
        Nat.mod_lt _ hlen
      have hmem : api_keys.getD ((start_index + o) % api_keys.length) ""
          ∈ api_keys := by
        rw [List.getD_eq_getElem api_keys "" hidx]
        exact List.getElem_mem hidx
      exact hunav _ hmem
    have hempty : api_keys.isEmpty = false := by
      cases api_keys with
      | nil => exact absurd rfl hne
      | cons a rest => rfl
    simp only [RateLimitStore.reserve_key, hempty, Bool.false_eq_true, if_false]
    rw [reserve_go_all_unavailable _ _ _ hoff]
    have hfm : (List.range api_keys.length).filterMap (fun o =>
        let w := RateLimitStore.key_wait_seconds_locked retry_after
          (entriesOfD (RateLimitStore.prune_locked now s).1.events bucket
            (fingerprint_api_key
              (api_keys.getD ((start_index + o) % api_keys.length) "")))
          limits now
        if 0 < w then some w else none) =
        collected_waits retry_after
          (RateLimitStore.prune_locked now s).1.events bucket limits now
          (probe_order api_keys start_index) := by
      rw [collected_waits, probe_order, List.filterMap_map]
      rfl
    rw [List.nil_append, hfm]
    cases hcw : collected_waits retry_after
        (RateLimitStore.prune_locked now s).1.events bucket limits now
        (probe_order api_keys start_index) with
    | nil =>
      show (none, max 1 retry_after) = (none, retry_after)
      rw [max_eq_right hretry]
    | cons w ws => rfl

theorem reserve_key_refusal_spec_witness :
    (RateLimitStore.reserve_key 30 MBucket.nano_banana ["a", "b"] ⟨1, 10⟩ 0 100
      ⟨[(MBucket.nano_banana, [("a", [⟨0, 95, 0⟩]), ("b", [⟨1, 96, 0⟩])])],
        0, 2⟩).1 = (none, 55) := by
  have h := (reserve_key_refusal_spec 30 MBucket.nano_banana ["a", "b"]
    ⟨1, 10⟩ 0 100
    ⟨[(MBucket.nano_banana, [("a", [⟨0, 95, 0⟩]), ("b", [⟨1, 96, 0⟩])])], 0, 2⟩
    (by decide)).2 (by decide) (by decide)
  rw [h]
  decide

/-! ### Claim C6 -/

theorem reserve_go_none_frame {retry_after : Int} {bucket : MBucket}
    {api_keys : List String} {limits : Limits} {start_index : Nat} {now : Int}
    (offsets : List Nat) :
    ∀ (waits : List Int) (s : StoreState),
      (RateLimitStore.reserve_go retry_after bucket api_keys limits
        start_index now offsets waits s).1.1 = none →
      (∀ (b : MBucket) (f : String),
        entriesOfD (RateLimitStore.reserve_go retry_after bucket api_keys
          limits start_index now offsets waits s).2.events b f =
          entriesOfD s.events b f) ∧
      (RateLimitStore.reserve_go retry_after bucket api_keys limits
        start_index now offsets waits s).2.next_id = s.next_id := by
  induction offsets with
  | nil =>
    intro waits s _
    exact ⟨fun b f => rfl, rfl⟩
  | cons o rest ih =>
    intro waits s hnone
    by_cases hav : RateLimitStore.is_key_available_locked
        (RateLimitStore.entries_locked s bucket (fingerprint_api_key
          (api_keys.getD ((start_index + o) % api_keys.length) ""))).1
        limits now
    · exfalso
      simp only [RateLimitStore.reserve_go, hav, if_true] at hnone
      exact Option.some_ne_none _ hnone
    · simp only [RateLimitStore.reserve_go, hav, Bool.false_eq_true,
        if_false] at hnone ⊢
      rcases ih _ _ hnone with ⟨h1, h2⟩
      refine ⟨fun b f => ?_, ?_⟩
      · rw [h1 b f, entries_locked_snd_entriesOfD]
      · rw [h2]
        rfl

theorem reserve_go_some_spec {retry_after : Int} {bucket : MBucket}
    {api_keys : List String} {limits : Limits} {start_index : Nat} {now : Int}
    (offsets : List Nat) :
    ∀ (waits : List Int) (s : StoreState)
      (alloc : RateLimitStore.Allocation) (w : Int),
      (RateLimitStore.reserve_go retry_after bucket api_keys limits
        start_index now offsets waits s).1 = (some alloc, w) →
      w = 0 ∧ alloc.event_id = s.next_id ∧
      (RateLimitStore.reserve_go retry_after bucket api_keys limits
        start_index now offsets waits s).2.next_id = s.next_id + 1 ∧
      entriesOfD (RateLimitStore.reserve_go retry_after bucket api_keys limits
        start_index now offsets waits s).2.events bucket
          alloc.key_fingerprint =
        entriesOfD s.events bucket alloc.key_fingerprint ++
          [{ id := s.next_id, ts := now, tokens := 0 }] ∧
      (∀ (b : MBucket) (f : String),
        ¬(b = bucket ∧ f = alloc.key_fingerprint) →
        entriesOfD (RateLimitStore.reserve_go retry_after bucket api_keys
          limits start_index now offsets waits s).2.events b f =
          entriesOfD s.events b f) := by
  induction offsets with
  | nil =>
    intro waits s alloc w h
    simp only [RateLimitStore.reserve_go, Prod.mk.injEq] at h
    exact Option.noConfusion h.1
  | cons o rest ih =>
    intro waits s alloc w h
    by_cases hav : RateLimitStore.is_key_available_locked
        (RateLimitStore.entries_locked s bucket (fingerprint_api_key
          (api_keys.getD ((start_index + o) % api_keys.length) ""))).1
        limits now
    · simp only [RateLimitStore.reserve_go, hav, if_true, Prod.mk.injEq,
        Option.some.injEq] at h
      obtain ⟨halloc, hw⟩ := h
      subst halloc
      simp only [RateLimitStore.reserve_go, hav, if_true]
      refine ⟨hw.symm, rfl, rfl, ?_, ?_⟩
      · rw [entries_locked_snd_events, entriesOfD_set]
        rw [if_pos ⟨rfl, rfl⟩, entries_locked_fst]
        rfl
      · intro b f hbf
        rw [entries_locked_snd_events, entriesOfD_set]
        have hbf2 : ¬(bucket = b ∧ fingerprint_api_key
            (api_keys.getD ((start_index + o) % api_keys.length) "") = f) :=
          fun hc => hbf ⟨hc.1.symm, hc.2.symm⟩
        rw [if_neg hbf2]
        exact entriesOfD_ensure _ _ _ _ _
    · simp only [RateLimitStore.reserve_go, hav, Bool.false_eq_true,
        if_false] at h ⊢
      rcases ih _ _ _ _ h with ⟨h1, h2, h3, h4, h5⟩
      refine ⟨h1, ?_, ?_, ?_, ?_⟩
      · rw [h2]
        rfl
      · rw [h3]
        rfl
      · rw [h4, entries_locked_snd_entriesOfD]
        rfl
      · intro b f hbf
        rw [h5 b f hbf, entries_locked_snd_entriesOfD]

theorem update_event_length (event_id : Nat) (now : Int) (es : List Event) :
    (RateLimitStore.update_event event_id now es).1.length = es.length := by
  induction es with
  | nil => rfl
  | cons a rest ih =>
    by_cases ha : a.id = event_id
    · simp [RateLimitStore.update_event, ha]
    · simp [RateLimitStore.update_event, ha, ih]

/-- C6: modulo the pruning performed at the start of each operation, a
reserve_key call that returns an allocation appends exactly one event with
a fresh id and ts = now to the allocated key's list and changes no other
entry list; a reserve_key call that returns null changes no entry list;
and finalize_reservation changes no entry list's length — so reserve
followed by finalize leaves exactly one event added. -/
theorem reserve_finalize_conservation (retry_after : Int) (bucket : MBucket)
    (api_keys : List String) (limits : Limits) (start_index : Nat) (now : Int)
    (s : StoreState) :
    (∀ (alloc : RateLimitStore.Allocation) (w : Int),
      (RateLimitStore.reserve_key retry_after bucket api_keys limits
        start_index now s).1 = (some alloc, w) →
      w = 0 ∧ alloc.event_id = s.next_id ∧
      entriesOfD (RateLimitStore.reserve_key retry_after bucket api_keys
        limits start_index now s).2.events bucket alloc.key_fingerprint =
        entriesOfD (RateLimitStore.prune_locked now s).1.events bucket
          alloc.key_fingerprint ++
          [{ id := s.next_id, ts := now, tokens := 0 }] ∧
      (∀ (b : MBucket) (f : String),
        ¬(b = bucket ∧ f = alloc.key_fingerprint) →
        entriesOfD (RateLimitStore.reserve_key retry_after bucket api_keys
          limits start_index now s).2.events b f =
          entriesOfD (RateLimitStore.prune_locked now s).1.events b f) ∧
      ((∀ x ∈ allEvents s.events, x.2.2.id < s.next_id) →
        ∀ x ∈ allEvents (RateLimitStore.prune_locked now s).1.events,
          x.2.2.id ≠ alloc.event_id)) ∧
    ((RateLimitStore.reserve_key retry_after bucket api_keys limits
        start_index now s).1.1 = none →
      ∀ (b : MBucket) (f : String),
        entriesOfD (RateLimitStore.reserve_key retry_after bucket api_keys
          limits start_index now s).2.events b f =
          entriesOfD (RateLimitStore.prune_locked now s).1.events b f) ∧
    (∀ (res : RateLimitStore.Reservation) (now2 : Int) (s2 : StoreState)
      (b : MBucket) (f : String),
      (entriesOfD (RateLimitStore.finalize_reservation res now2 s2).events
        b f).length =
        (entriesOfD (RateLimitStore.prune_locked now2 s2).1.events b f).length) := by
  refine ⟨?_, ?_, ?_⟩
  · intro alloc w h
    by_cases hempty : api_keys.isEmpty
    · simp only [RateLimitStore.reserve_key, hempty, if_true,
        Prod.mk.injEq] at h
      exact Option.noConfusion h.1
    · simp only [RateLimitStore.reserve_key, hempty, Bool.false_eq_true,
        if_false] at h ⊢
      rcases reserve_go_some_spec _ _ _ _ _ h with ⟨h1, h2, _, h4, h5⟩
      refine ⟨h1, ?_, ?_, h5, ?_⟩
      · rw [h2, prune_locked_next_id]
      · rw [h4, prune_locked_next_id]
      · intro hids x hx
        rw [prune_locked_events] at hx
        have hmem := (mem_allEvents_prune hx).1
        have hlt := hids x hmem
        rw [h2, prune_locked_next_id]
        omega
  · intro h b f
    by_cases hempty : api_keys.isEmpty
    · simp only [RateLimitStore.reserve_key, hempty, if_true]
    · simp only [RateLimitStore.reserve_key, hempty, Bool.false_eq_true,
        if_false] at h ⊢
      exact (reserve_go_none_frame _ _ _ h).1 b f
  · intro res now2 s2 b f
    simp only [RateLimitStore.finalize_reservation]
    split
    · simp only
      rw [entries_locked_snd_events, entriesOfD_set]
      by_cases hbf : res.model_bucket = b ∧ res.key_fingerprint = f
      · rw [if_pos hbf, update_event_length, entries_locked_fst, hbf.1, hbf.2]
      · rw [if_neg hbf, entriesOfD_ensure]
    · rw [entries_locked_snd_entriesOfD]

theorem reserve_finalize_conservation_witness :
    entriesOfD (RateLimitStore.reserve_key 30 MBucket.nano_banana ["k"]
        ⟨2, 10⟩ 0 100 (empty_state 0)).2.events MBucket.nano_banana "k" =
      entriesOfD (RateLimitStore.prune_locked 100 (empty_state 0)).1.events
        MBucket.nano_banana "k" ++ [{ id := 0, ts := 100, tokens := 0 }] :=
  ((reserve_finalize_conservation 30 MBucket.nano_banana ["k"] ⟨2, 10⟩ 0 100
    (empty_state 0)).1
    { api_key := "k", key_index := 0, key_count := 1, key_fingerprint := "k",
      event_id := 0 } 0 (by decide)).2.2.1

/-! ### Claim C8 -/

/-- C8 counterexample: with per-key rpm limit -1 and a one-key pool, the
snapshot reports rpm limit 0 for both buckets, not -1 × 1 = -1 — the
source clamps each per-key limit at zero before multiplying by the pool
size. -/
theorem snapshot_negative_limit_clamped :
    ((RateLimitStore.snapshot 30 ["k"] (fun _ => ⟨-1, 5⟩) true 0
        (empty_state 0)).1.map fun p => p.2.rpm_limit) = [0, 0] ∧
      (-1 : Int) * ((["k"] : List String).length : Int) = -1 ∧
      (0 : Int) ≠ -1 := by
  decide

theorem snapshot_keys_spec (retry_after : Int) (b : MBucket) (limits : Limits)
    (now : Int) (keys : List String) :
    ∀ (s : StoreState) (rpm_t rpd_t : Int) (any_av : Bool)
      (blocked : List Int),
      (RateLimitStore.snapshot_keys retry_after b limits now keys s rpm_t
        rpd_t any_av blocked).1 =
        (rpm_t + ((keys.map fun k =>
            ((RateLimitStore.usage_for_entries
              (entriesOfD s.events b (fingerprint_api_key k)) now).rpm_used
              : Int)).sum),
         rpd_t + ((keys.map fun k =>
            ((RateLimitStore.usage_for_entries
              (entriesOfD s.events b (fingerprint_api_key k)) now).rpd_used
              : Int)).sum),
         (any_av || keys.any fun k => RateLimitStore.is_key_available_locked
            (entriesOfD s.events b (fingerprint_api_key k)) limits now),
         blocked ++ keys.filterMap fun k =>
            if RateLimitStore.is_key_available_locked
              (entriesOfD s.events b (fingerprint_api_key k)) limits now then
              none
            else
              let w := RateLimitStore.key_wait_seconds_locked retry_after
                (entriesOfD s.events b (fingerprint_api_key k)) limits now
              if 0 < w then some w else none) := by
  induction keys with
  | nil =>
    intro s rpm_t rpd_t any_av blocked
    simp [RateLimitStore.snapshot_keys]
  | cons k rest ih =>
    intro s rpm_t rpd_t any_av blocked
    by_cases hav : RateLimitStore.is_key_available_locked
        (entriesOfD s.events b (fingerprint_api_key k)) limits now
    · simp only [RateLimitStore.snapshot_keys, entries_locked_fst, hav,
        if_true]
      rw [ih]
      simp only [entries_locked_snd_entriesOfD, List.map_cons, List.sum_cons,
        List.any_cons, hav, List.filterMap_cons]
      refine congrArg₂ _ (by ring) (congrArg₂ _ (by ring) ?_)
      simp
    · simp only [RateLimitStore.snapshot_keys, entries_locked_fst, hav,
        Bool.false_eq_true, if_false]
      rw [ih]
      simp only [entries_locked_snd_entriesOfD, List.map_cons, List.sum_cons,
        List.any_cons, hav, List.filterMap_cons, Bool.false_or]
      by_cases hw : 0 < RateLimitStore.key_wait_seconds_locked retry_after
          (entriesOfD s.events b (fingerprint_api_key k)) limits now
      · simp only [hw, if_true]
        refine congrArg₂ _ (by ring) (congrArg₂ _ (by ring) ?_)
        simp [List.append_assoc]
      · simp only [hw, if_false]
        refine congrArg₂ _ (by ring) (congrArg₂ _ (by ring) ?_)
        simp

theorem snapshot_bucket_spec (retry_after : Int) (b : MBucket)
    (api_keys : List String) (limits : Limits) (enabled : Bool) (now : Int)
    (s : StoreState) :
    (RateLimitStore.snapshot_bucket retry_after b api_keys limits enabled now
      s).1 = snapshot_bucket_claim retry_after b api_keys limits enabled now
        s.events := by
  simp only [RateLimitStore.snapshot_bucket, snapshot_keys_spec,
    snapshot_bucket_claim]
  simp

theorem snapshot_bucket_claim_congr (retry_after : Int) (b : MBucket)
    (api_keys : List String) (limits : Limits) (enabled : Bool) (now : Int)
    {L1 L2 : Ledger} (h : ∀ f, entriesOfD L1 b f = entriesOfD L2 b f) :
    snapshot_bucket_claim retry_after b api_keys limits enabled now L1 =
      snapshot_bucket_claim retry_after b api_keys limits enabled now L2 := by
  simp only [snapshot_bucket_claim, h]

/-- C8 amended: snapshot reports, per bucket and as a pure function of the
pruned ledger, the per-key limits clamped at zero times the pool size as
the rpm and rpd limits, the sums of the per-key window counts as the used
counts, exhausted exactly when rate limiting is enabled, the pool is
non-empty and no key is available, and retry_after_seconds equal to the
least positive blocked-key wait when exhausted and such a wait exists,
else 0. -/
theorem snapshot_spec (retry_after : Int) (api_keys : List String)
    (limits_by_bucket : MBucket → Limits) (enabled : Bool) (now : Int)
    (s : StoreState) :
    (RateLimitStore.snapshot retry_after api_keys limits_by_bucket enabled
      now s).1 =
      MODEL_BUCKETS.map fun b =>
        (b, snapshot_bucket_claim retry_after b api_keys (limits_by_bucket b)
          enabled now (RateLimitStore.prune_locked now s).1.events) := by
  simp only [RateLimitStore.snapshot, MODEL_BUCKETS, List.map_cons,
    List.map_nil]
  refine congrArg₂ _ ?_ (congrArg₂ _ ?_ rfl)
  · rw [snapshot_bucket_spec]
  · rw [snapshot_bucket_spec, snapshot_bucket_snd]
    refine congrArg _ ?_
    apply snapshot_bucket_claim_congr
    intro f
    exact snapshot_keys_snd_entriesOfD _ _ _ _ _ _ _ _ _ _ _ _
